import Mathlib

/-!
Verification of the Ollama pseudo function-calling adapter
(`packages/core/src/config/ollamaConfig.ts` response parser,
`packages/core/src/ollama/ollamaClient.ts` orchestrator,
`packages/core/src/ollama/promptBuilder.ts` prompt builders).

Strings are modelled as `List Char`.  JavaScript's `JSON.parse` is embedded
as an executable fuel-based recursive-descent parser; JSON numbers keep
their lexeme (their numeric value is never consumed by this code except
for truthiness, which is decided on the lexeme).  The global regex
`<tool_code>([\s\S]*?)<\/tool_code>` is embedded by its exec-loop
semantics: repeatedly find the first occurrence of the open tag, then the
first occurrence of the close tag after it.  Network and tool calls are
oracles supplied in the environment; the turn additionally records an
event trace (API calls and tool invocations) so that "executes tools
exactly once" and "no retry" are statable.
-/

namespace OllamaSpec

abbrev Str := List Char

/-- JavaScript `String.prototype.trim` whitespace class (WhiteSpace and
LineTerminator code points). -/
def isJsWs (c : Char) : Bool :=
  c = ' ' || c = '\t' || c = '\n' || c = '\r' ||
  c.toNat = 0x0b || c.toNat = 0x0c || c.toNat = 0xa0 || c.toNat = 0x1680 ||
  (0x2000 ≤ c.toNat && c.toNat ≤ 0x200a) ||
  c.toNat = 0x2028 || c.toNat = 0x2029 || c.toNat = 0x202f ||
  c.toNat = 0x205f || c.toNat = 0x3000 || c.toNat = 0xfeff

/-- JavaScript `s.trim()`: drop leading and trailing whitespace. -/
def jsTrim (s : Str) : Str :=
  ((s.dropWhile isJsWs).reverse.dropWhile isJsWs).reverse

def tripleNL : Str := ['\n', '\n', '\n']

/-- JavaScript `s.replace(/\n{3,}/g, '\n\n')`: every maximal run of three
or more newlines becomes exactly two.  Implemented one character at a
time: while three consecutive newlines are ahead, drop one. -/
def collapseNL : Str → Str
  | [] => []
  | c :: rest =>
    if tripleNL.isPrefixOf (c :: rest) then collapseNL rest
    else c :: collapseNL rest

/-- Split `s` at the first occurrence of `pat`:
`some (pre, post)` with `s = pre ++ pat ++ post`, or `none`. -/
def splitFirst (pat : Str) : Str → Option (Str × Str)
  | [] => if pat.isPrefixOf [] then some ([], []) else none
  | c :: rest =>
    if pat.isPrefixOf (c :: rest) then some ([], (c :: rest).drop pat.length)
    else (splitFirst pat rest).map (fun p => (c :: p.1, p.2))

/-- JavaScript `s.replace(pat, '')` with a plain-string pattern: remove the
first occurrence, or return `s` unchanged when absent. -/
def replaceFirst (s pat : Str) : Str :=
  match splitFirst pat s with
  | some (pre, post) => pre ++ post
  | none => s

/-- Substring occurrence, as an executable check. -/
def occursB (pat : Str) : Str → Bool
  | [] => pat.isPrefixOf []
  | c :: rest => pat.isPrefixOf (c :: rest) || occursB pat rest

/-- Substring occurrence, as a proposition. -/
def Occurs (pat s : Str) : Prop := ∃ u v, s = u ++ pat ++ v

/-! ## JSON values and `JSON.parse`

JSON numbers are kept as their lexeme; the adapter never uses their
numeric value except through JavaScript truthiness, which is decided on
the lexeme.  Objects are built with last-assignment-wins/first-position
semantics, as JavaScript object literals are.  `\uXXXX` escapes are
decoded, surrogate pairs combined; a lone surrogate is rejected (model
restriction, irrelevant to the claims). -/

inductive JsonVal where
  | null
  | bool (b : Bool)
  | num (lexeme : Str)
  | str (s : Str)
  | arr (items : List JsonVal)
  | obj (fields : List (Str × JsonVal))

/-- JSON (RFC 8259 / `JSON.parse`) insignificant whitespace. -/
def jsonWsB (c : Char) : Bool := c = ' ' || c = '\t' || c = '\n' || c = '\r'

def skipWs (s : Str) : Str := s.dropWhile jsonWsB

def hexVal (c : Char) : Option Nat :=
  if '0' ≤ c ∧ c ≤ '9' then some (c.toNat - '0'.toNat)
  else if 'a' ≤ c ∧ c ≤ 'f' then some (c.toNat - 'a'.toNat + 10)
  else if 'A' ≤ c ∧ c ≤ 'F' then some (c.toNat - 'A'.toNat + 10)
  else none

def parse4Hex : Str → Option (Nat × Str)
  | a :: b :: c :: d :: rest =>
    match hexVal a, hexVal b, hexVal c, hexVal d with
    | some x, some y, some z, some w => some (((x * 16 + y) * 16 + z) * 16 + w, rest)
    | _, _, _, _ => none
  | _ => none

def consFirst (ch : Char) (o : Option (Str × Str)) : Option (Str × Str) :=
  o.map (fun p => (ch :: p.1, p.2))

/-- Body of a JSON string after the opening quote; returns the decoded
characters and the remainder after the closing quote. -/
def parseStringBody : Nat → Str → Option (Str × Str)
  | 0, _ => none
  | fuel + 1, s =>
    match s with
    | [] => none
    | c :: rest =>
      if c = '"' then some ([], rest)
      else if c = '\\' then
        match rest with
        | [] => none
        | e :: rest2 =>
          if e = '"' then consFirst '"' (parseStringBody fuel rest2)
          else if e = '\\' then consFirst '\\' (parseStringBody fuel rest2)
          else if e = '/' then consFirst '/' (parseStringBody fuel rest2)
          else if e = 'b' then consFirst '\x08' (parseStringBody fuel rest2)
          else if e = 'f' then consFirst '\x0c' (parseStringBody fuel rest2)
          else if e = 'n' then consFirst '\n' (parseStringBody fuel rest2)
          else if e = 'r' then consFirst '\r' (parseStringBody fuel rest2)
          else if e = 't' then consFirst '\t' (parseStringBody fuel rest2)
          else if e = 'u' then
            match parse4Hex rest2 with
            | none => none
            | some (n, rest3) =>
              if 0xd800 ≤ n ∧ n ≤ 0xdbff then
                match rest3 with
                | '\\' :: 'u' :: rest4 =>
                  match parse4Hex rest4 with
                  | some (m, rest5) =>
                    if 0xdc00 ≤ m ∧ m ≤ 0xdfff then
                      consFirst (Char.ofNat (0x10000 + (n - 0xd800) * 0x400 + (m - 0xdc00)))
                        (parseStringBody fuel rest5)
                    else none
                  | none => none
                | _ => none
              else if 0xdc00 ≤ n ∧ n ≤ 0xdfff then none
              else consFirst (Char.ofNat n) (parseStringBody fuel rest3)
          else none
      else if c.toNat < 0x20 then none
      else consFirst c (parseStringBody fuel rest)

/-- Exponent part of a JSON number (if present), completing lexeme `lex`. -/
def parseExpPart (lex : Str) (s : Str) : Option (JsonVal × Str) :=
  match s with
  | e :: r =>
    if e = 'e' ∨ e = 'E' then
      let p : Str × Str := match r with
        | '+' :: t => (['+'], t)
        | '-' :: t => (['-'], t)
        | _ => ([], r)
      let ds := p.2.takeWhile Char.isDigit
      if ds.isEmpty then none
      else some (.num (lex ++ e :: p.1 ++ ds), p.2.drop ds.length)
    else some (.num lex, e :: r)
  | [] => some (.num lex, [])

/-- JSON number: `-? (0 | [1-9][0-9]*) ('.' [0-9]+)? ([eE][+-]?[0-9]+)?`. -/
def parseNumber (s : Str) : Option (JsonVal × Str) :=
  let p : Str × Str := match s with
    | '-' :: r => (['-'], r)
    | _ => ([], s)
  let intPart := p.2.takeWhile Char.isDigit
  let s2 := p.2.drop intPart.length
  if intPart.isEmpty then none
  else if 1 < intPart.length ∧ intPart.headD 'x' = '0' then none
  else
    match s2 with
    | '.' :: r =>
      let ds := r.takeWhile Char.isDigit
      if ds.isEmpty then none
      else parseExpPart (p.1 ++ intPart ++ '.' :: ds) (r.drop ds.length)
    | _ => parseExpPart (p.1 ++ intPart) s2

/-- Insert `k := v` into an object: last assignment wins, first position kept. -/
def insertField (fields : List (Str × JsonVal)) (k : Str) (v : JsonVal) :
    List (Str × JsonVal) :=
  match fields with
  | [] => [(k, v)]
  | (k', v') :: rest => if k' = k then (k', v) :: rest else (k', v') :: insertField rest k v

mutual

def parseJsonVal : Nat → Str → Option (JsonVal × Str)
  | 0, _ => none
  | fuel + 1, s =>
    match skipWs s with
    | 'n' :: 'u' :: 'l' :: 'l' :: r => some (.null, r)
    | 't' :: 'r' :: 'u' :: 'e' :: r => some (.bool true, r)
    | 'f' :: 'a' :: 'l' :: 's' :: 'e' :: r => some (.bool false, r)
    | '"' :: r => (parseStringBody (r.length + 1) r).map (fun p => (.str p.1, p.2))
    | '[' :: r =>
      (match skipWs r with
       | ']' :: r2 => some (.arr [], r2)
       | r2 => parseArrItems fuel r2 [])
    | '\x7b' :: r =>
      (match skipWs r with
       | '\x7d' :: r2 => some (.obj [], r2)
       | r2 => parseObjItems fuel r2 [])
    | c :: r => if c = '-' ∨ c.isDigit then parseNumber (c :: r) else none
    | [] => none

def parseArrItems : Nat → Str → List JsonVal → Option (JsonVal × Str)
  | 0, _, _ => none
  | fuel + 1, s, acc =>
    match parseJsonVal fuel s with
    | none => none
    | some (v, r) =>
      match skipWs r with
      | ',' :: r2 => parseArrItems fuel r2 (acc ++ [v])
      | ']' :: r2 => some (.arr (acc ++ [v]), r2)
      | _ => none

def parseObjItems : Nat → Str → List (Str × JsonVal) → Option (JsonVal × Str)
  | 0, _, _ => none
  | fuel + 1, s, acc =>
    match skipWs s with
    | '"' :: r =>
      (match parseStringBody (r.length + 1) r with
       | none => none
       | some (key, r2) =>
         match skipWs r2 with
         | ':' :: r3 =>
           (match parseJsonVal fuel r3 with
            | none => none
            | some (v, r4) =>
              match skipWs r4 with
              | ',' :: r5 => parseObjItems fuel r5 (insertField acc key v)
              | '\x7d' :: r5 => some (.obj (insertField acc key v), r5)
              | _ => none)
         | _ => none)
    | _ => none

end

/-- `JSON.parse`: parse a complete JSON text (whitespace allowed around it). -/
def Json.parse (s : Str) : Option JsonVal :=
  match parseJsonVal (s.length + 2) s with
  | some (v, r) => if (skipWs r).isEmpty then some v else none
  | none => none

/-- Property access `j.k` (only objects have fields; keys are unique by
construction of `insertField`). -/
def JsonVal.getField : JsonVal → Str → Option JsonVal
  | .obj fields, k => (fields.find? (fun p => p.1 == k)).map (fun p => p.2)
  | _, _ => none

/-- Whether a number lexeme denotes zero (all mantissa digits are `0`). -/
def numLexemeIsZero (lex : Str) : Bool :=
  let mant := (if lex.headD ' ' = '-' then lex.drop 1 else lex).takeWhile
    (fun c => !(c == 'e' || c == 'E'))
  mant.all (fun c => c = '0' || c = '.')

/-- JavaScript truthiness of a JSON value. -/
def jsTruthy : JsonVal → Bool
  | .null => false
  | .bool b => b
  | .num lex => !numLexemeIsZero lex
  | .str s => !s.isEmpty
  | .arr _ => true
  | .obj _ => true

/-! ## Response parser (`parseOllamaResponse`, ollamaConfig.ts 134-185) -/

def openTag : Str := "<tool_code>".data
def closeTag : Str := "</tool_code>".data

/-- Raw tool call data: `{ name, parameters }`. -/
structure RawToolCall where
  name : Str
  parameters : JsonVal

/-- Gemini-compatible call: `{ name, args }`. -/
structure FunctionCall where
  name : Str
  args : JsonVal

/-- The exec-loop of the global regex
`/<tool_code>([\s\S]*?)<\/tool_code>/g`: from the current position, the
leftmost match starts at the first occurrence of the open tag followed
(non-greedily) by the first occurrence of the close tag after it; the
scan resumes after the match.  Returns `(match[0], match[1])` pairs.
Fuel is the length of the scanned text, which bounds the match count. -/
def scanAux : Nat → Str → List (Str × Str)
  | 0, _ => []
  | fuel + 1, s =>
    match splitFirst openTag s with
    | none => []
    | some (_, rest) =>
      match splitFirst closeTag rest with
      | none => []
      | some (inter, rest2) => (openTag ++ inter ++ closeTag, inter) :: scanAux fuel rest2

def scanBlocks (s : Str) : List (Str × Str) := scanAux s.length s

/-- `toolCall.parameters || {}`. -/
def paramsOrEmpty (j : JsonVal) : JsonVal :=
  match j.getField "parameters".data with
  | some v => if jsTruthy v then v else .obj []
  | none => .obj []

/-- Decision made by the loop body for one `tool_code` block (ollamaConfig.ts
144-169): `JSON.parse` the trimmed interior (a `TypeError` from accessing
`tool_name` on `null` is caught by the same `try`, hence also `none`); then
require `toolCall.tool_name && typeof toolCall.tool_name === 'string'`,
i.e. a non-empty string `tool_name`. -/
def blockCall (interior : Str) : Option RawToolCall :=
  match Json.parse (jsTrim interior) with
  | none => none
  | some j =>
    match j.getField "tool_name".data with
    | some (.str n) => if n.isEmpty then none else some ⟨n, paramsOrEmpty j⟩
    | _ => none

/-- The `while` loop over the matches: a block that yields a call
appends to `rawToolCalls` and `functionCalls` (with the same
`parameters || {}` value) and removes the first occurrence of `match[0]`
from the running clean text; otherwise the loop only logs. -/
def processMatches : List (Str × Str) → Str → List RawToolCall → List FunctionCall →
    Str × List RawToolCall × List FunctionCall
  | [], ct, raws, fns => (ct, raws, fns)
  | (full, inter) :: ms, ct, raws, fns =>
    match blockCall inter with
    | some c => processMatches ms (replaceFirst ct full) (raws ++ [c]) (fns ++ [⟨c.name, c.parameters⟩])
    | none => processMatches ms ct raws fns

structure ParsedOllamaResponse where
  /-- Text content with tool_code blocks removed (`null` when empty). -/
  text : Option Str
  functionCalls : List FunctionCall
  rawToolCalls : List RawToolCall

/-- `parseOllamaResponse` (ollamaConfig.ts 134-185). -/
def parseOllamaResponse (responseText : Str) : ParsedOllamaResponse :=
  let st := processMatches (scanBlocks responseText) responseText [] []
  let cleaned := jsTrim (collapseNL st.1)
  { text := if cleaned.isEmpty then none else some cleaned
    functionCalls := st.2.2
    rawToolCalls := st.2.1 }

/-! ## `JSON.stringify` (compact and 2-space-indented variants)

Used by the tool-result coercion and the follow-up prompt builder.  One
modelling caveat: a number prints as its stored lexeme rather than
JavaScript's canonical float form; no claim depends on prompt text. -/

def hexDigit (n : Nat) : Char :=
  if n < 10 then Char.ofNat ('0'.toNat + n) else Char.ofNat ('a'.toNat + n - 10)

def escapeJsonChar (c : Char) : Str :=
  if c = '"' then ['\\', '"']
  else if c = '\\' then ['\\', '\\']
  else if c = '\x08' then ['\\', 'b']
  else if c = '\x0c' then ['\\', 'f']
  else if c = '\n' then ['\\', 'n']
  else if c = '\r' then ['\\', 'r']
  else if c = '\t' then ['\\', 't']
  else if c.toNat < 0x20 then
    ['\\', 'u', '0', '0', hexDigit (c.toNat / 16), hexDigit (c.toNat % 16)]
  else [c]

def escapeJsonStr (s : Str) : Str :=
  '"' :: (s.map escapeJsonChar).flatten ++ ['"']

def mkIndent (depth : Nat) : Str := List.replicate (2 * depth) ' '

mutual

/-- `JSON.stringify(v)` (no indent) / `JSON.stringify(v, null, 2)`
(2-space indent).  Fuel-based for kernel reducibility; `sizeOf` strictly
dominates the recursion depth. -/
def stringifyAux : Nat → Bool → Nat → JsonVal → Str
  | 0, _, _, _ => []
  | fuel + 1, pretty, depth, v =>
    match v with
    | .null => "null".data
    | .bool true => "true".data
    | .bool false => "false".data
    | .num lex => lex
    | .str s => escapeJsonStr s
    | .arr [] => "[]".data
    | .arr (x :: xs) =>
      if pretty then
        '[' :: '\n' :: mkIndent (depth + 1) ++
          stringifyItems fuel pretty (depth + 1) x xs ++
          '\n' :: mkIndent depth ++ [']']
      else '[' :: stringifyItems fuel pretty depth x xs ++ [']']
    | .obj [] => "\x7b\x7d".data
    | .obj (f :: fs) =>
      if pretty then
        '\x7b' :: '\n' :: mkIndent (depth + 1) ++
          stringifyFields fuel pretty (depth + 1) f fs ++
          '\n' :: mkIndent depth ++ ['\x7d']
      else '\x7b' :: stringifyFields fuel pretty depth f fs ++ ['\x7d']

def stringifyItems : Nat → Bool → Nat → JsonVal → List JsonVal → Str
  | 0, _, _, _, _ => []
  | fuel + 1, pretty, depth, x, xs =>
    match xs with
    | [] => stringifyAux fuel pretty depth x
    | y :: ys =>
      stringifyAux fuel pretty depth x ++
        (if pretty then ',' :: '\n' :: mkIndent depth else [',']) ++
        stringifyItems fuel pretty depth y ys

def stringifyFields : Nat → Bool → Nat → (Str × JsonVal) → List (Str × JsonVal) → Str
  | 0, _, _, _, _ => []
  | fuel + 1, pretty, depth, f, fs =>
    escapeJsonStr f.1 ++ (if pretty then ':' :: [' '] else [':']) ++
      stringifyAux fuel pretty depth f.2 ++
      (match fs with
       | [] => []
       | g :: gs =>
         (if pretty then ',' :: '\n' :: mkIndent depth else [',']) ++
           stringifyFields fuel pretty depth g gs)

end

mutual

def jsonSize : JsonVal → Nat
  | .null => 1
  | .bool _ => 1
  | .num _ => 1
  | .str _ => 1
  | .arr xs => 1 + jsonSizeList xs
  | .obj fs => 1 + jsonSizeFields fs

def jsonSizeList : List JsonVal → Nat
  | [] => 0
  | x :: xs => 1 + jsonSize x + jsonSizeList xs

def jsonSizeFields : List (Str × JsonVal) → Nat
  | [] => 0
  | f :: fs => 1 + jsonSize f.2 + jsonSizeFields fs

end

def jsonFuel : JsonVal → Nat := fun v => jsonSize v + 1

def Json.stringifyCompact (v : JsonVal) : Str := stringifyAux (jsonFuel v) false 0 v

def Json.stringifyIndent2 (v : JsonVal) : Str := stringifyAux (jsonFuel v) true 0 v

/-! ## Prompt builders (promptBuilder.ts) -/

/-- Tool parameter schema entry (`{type?, description?}`). -/
structure PropSchema where
  type : Option Str
  description : Option Str

structure ParamsSchema where
  properties : Option (List (Str × PropSchema))
  required : Option (List Str)

structure ToolSchema where
  parameters : Option ParamsSchema

/-- Outcome of one tool invocation (`tool.execute`), as an oracle: a
string result, a structured result (serialized by `JSON.stringify`), or a
raised error carrying `error.message` (a non-`Error` throw is modelled by
the oracle already carrying `'Unknown error'`). -/
inductive ToolRunResult where
  | str (s : Str)
  | json (v : JsonVal)
  | raise (msg : Str)

/-- A tool from the registry catalog. -/
structure MTool where
  name : Str
  displayName : Str
  description : Str
  schema : ToolSchema
  execute : JsonVal → ToolRunResult

/-- `opt || dflt` for an optional string (empty string is falsy). -/
def optStrOr (o : Option Str) (dflt : Str) : Str :=
  match o with
  | some s => if s.isEmpty then dflt else s
  | none => dflt

def propLine (required? : Option (List Str)) (p : Str × PropSchema) : Str :=
  let req := match required? with
    | some l => if p.1 ∈ l then " (required)".data else " (optional)".data
    | none => " (optional)".data
  "  - ".data ++ p.1 ++ " (".data ++ optStrOr p.2.type "unknown".data ++ ")".data ++
    req ++ ": ".data ++ optStrOr p.2.description []

def toolDescription (tool : MTool) : Str :=
  let paramsList := match tool.schema.parameters with
    | none => "  No parameters".data
    | some ps =>
      match ps.properties with
      | none => "  No parameters".data
      | some props => List.intercalate ['\n'] (props.map (propLine ps.required))
  "**".data ++ tool.displayName ++ "** (tool_name: \"".data ++ tool.name ++
    "\")\nDescription: ".data ++ tool.description ++ "\nParameters:\n".data ++ paramsList

def generateToolDescriptions (tools : List MTool) : Str :=
  if tools.isEmpty then "No tools are currently available.".data
  else List.intercalate "\n\n".data (tools.map toolDescription)

/-- `buildOllamaPrompt` (promptBuilder.ts 13-44). -/
def buildOllamaPrompt (userPrompt : Str) (tools : List MTool) : Str :=
  ("You are a highly capable AI assistant with access to various tools to help users with their tasks.\n\nIMPORTANT INSTRUCTIONS:\n1. You must use the exact tool calling format described below when you need to use tools\n2. When calling tools, include the full <tool_code> block in your response\n3. You can call multiple tools in sequence if needed\n4. Always provide helpful context and explanations around tool calls\n\nAVAILABLE TOOLS:\n").data ++
  generateToolDescriptions tools ++
  ("\n\nTOOL CALLING FORMAT:\nWhen you need to use a tool, include it in your response using this exact format:\n\n<tool_code>\n\x7b\"tool_name\": \"tool_name_here\", \"parameters\": \x7b\"param1\": \"value1\", \"param2\": \"value2\"\x7d\x7d\n</tool_code>\n\nExamples:\n- To list files: <tool_code>\x7b\"tool_name\": \"ls\", \"parameters\": \x7b\"path\": \"/path/to/directory\"\x7d\x7d</tool_code>\n- To read a file: <tool_code>\x7b\"tool_name\": \"read_file\", \"parameters\": \x7b\"file_path\": \"/path/to/file.txt\"\x7d\x7d</tool_code>\n- To search for text: <tool_code>\x7b\"tool_name\": \"grep\", \"parameters\": \x7b\"pattern\": \"search_term\", \"path\": \"/search/path\"\x7d\x7d</tool_code>\n\nYou can include normal text before and after tool calls. The tool results will be provided to you, and you should incorporate them into your final response.\n\nNow, please help with the following request:\n\n").data ++
  userPrompt

/-- Per-call outcome `{ name, result, error? }` collected by `handleToolCalls`. -/
structure ToolOutcome where
  name : Str
  result : Str
  error : Option Str

/-- One `Tool Call i: ...` block of the follow-up prompt
(`result?.error ? 'ERROR' : 'SUCCESS'`, `result?.error || result?.result
|| 'No output'`, with JavaScript truthiness on the strings). -/
def toolCallBlock (index : Nat) (call : RawToolCall) (res? : Option ToolOutcome) : Str :=
  let errVal : Str := match res? with
    | some r => r.error.getD []
    | none => []
  let resVal : Str := match res? with
    | some r => r.result
    | none => []
  let status := if errVal.isEmpty then "SUCCESS".data else "ERROR".data
  let output := if !errVal.isEmpty then errVal
    else if !resVal.isEmpty then resVal
    else "No output".data
  "Tool Call ".data ++ (Nat.repr (index + 1)).data ++ ": ".data ++ call.name ++
    "\nParameters: ".data ++ Json.stringifyIndent2 call.parameters ++
    "\nStatus: ".data ++ status ++ "\nOutput: ".data ++ output

/-- `buildFollowUpPrompt` (promptBuilder.ts 79-105). -/
def buildFollowUpPrompt (originalPrompt : Str) (toolCalls : List RawToolCall)
    (toolResults : List ToolOutcome) : Str :=
  let toolCallsText := List.intercalate "\n\n".data
    (toolCalls.enum.map (fun p => toolCallBlock p.1 p.2 toolResults[p.1]?))
  ("Based on the tool execution results below, please provide a comprehensive response to the user's original request.\n\nOriginal Request: ").data ++
  originalPrompt ++
  ("\n\nTool Execution Results:\n").data ++ toolCallsText ++
  ("\n\nPlease analyze these results and provide a helpful response. If any tools failed, you may suggest alternatives or ask for clarification.").data

/-! ## Orchestrator (`OllamaClient`, ollamaClient.ts)

Network I/O and tool invocations are oracles in a `TurnEnv`; the
per-turn streaming generator `generateContentStreamInternal` is embedded
as `generateTurn`, returning both the yielded replies and an event trace
(API calls, tool invocations) that makes "executes tools exactly once",
"one follow-up prompt" and "no retry" statable.  The Ollama host, port
and model only shape the HTTP request the oracle abstracts. -/

/-- A part of a `Content`: either a text part (`'text' in part`) or any
other kind of part. -/
inductive Part where
  | text (s : Str)
  | other

structure Content where
  role : Str
  parts : List Part

/-- The finish-reason tags of the caller-facing contract used by this
adapter (the `@google/genai` enum has more members; only `STOP` and
`OTHER` are produced here). -/
inductive FinishReason where
  | STOP
  | MAX_TOKENS
  | SAFETY
  | OTHER
deriving DecidableEq

/-- One yielded `GenerateContentResponse`, restricted to the populated
fields (text, finishReason of the single candidate, functionCalls). -/
structure Reply where
  text : Str
  finishReason : FinishReason
  functionCalls : List FunctionCall

/-- What the single `fetch` of `callOllamaApi` yields: a network-level
rejection carrying the error message, or an HTTP response with a status
code and the `response` field of the decoded body. -/
inductive FetchOutcome where
  | netError (msg : Str)
  | httpResponse (status : Nat) (statusText : Str) (body : Str)

/-- Recorded effects of a turn. -/
inductive Event where
  | apiCall (prompt : Str)
  | toolInvoke (name : Str) (params : JsonVal)

structure TurnEnv where
  /-- Outcome of the POST to `/api/generate` for a given prompt. -/
  api : Str → FetchOutcome
  /-- `toolRegistry?`: `some tools` models a registry whose
  `getAllTools()` returns `tools`; `none` models no registry. -/
  tools : Option (List MTool)

/-- `callOllamaApi` (ollamaClient.ts 182-204): throws on network failure
or non-2xx status (`response.ok`), else returns the body's `response`. -/
def callOllamaApi (outcome : FetchOutcome) : Except Str Str :=
  match outcome with
  | .netError msg => .error msg
  | .httpResponse status statusText body =>
    if 200 ≤ status ∧ status < 300 then .ok body
    else .error ("Ollama API error: ".data ++ (Nat.repr status).data ++ ' ' :: statusText)

def FetchOutcome.isTransportFail : FetchOutcome → Prop
  | .netError _ => True
  | .httpResponse status _ _ => ¬(200 ≤ status ∧ status < 300)

def textParts (c : Content) : List Str :=
  c.parts.filterMap (fun p => match p with | .text s => some s | .other => none)

/-- The backward scan of `extractUserPrompt` (ollamaClient.ts 166-177):
first content from the end whose role is `user` and which has at least
one text part; its text parts joined with `'\n'`. -/
def findUserPrompt : List Content → Option Str
  | [] => none
  | c :: rest =>
    if c.role = "user".data ∧ ¬(textParts c).isEmpty then
      some (List.intercalate ['\n'] (textParts c))
    else findUserPrompt rest

/-- `extractUserPrompt` (ollamaClient.ts 153-180); contents already
normalized to an array (a missing `contents` behaves as `[]`). -/
def extractUserPrompt (contents : List Content) : Option Str :=
  findUserPrompt contents.reverse

def notFoundMsg (name : Str) : Str := "Tool '".data ++ name ++ "' not found".data

/-- The execution loop of `handleToolCalls` (ollamaClient.ts 214-241):
per call, resolve by exact name against the catalog; unresolved names get
an error outcome without any invocation; a resolved tool is invoked
(recorded as an event) and a raised error is captured in the outcome; a
string result passes through, a structured one is serialized. -/
def runToolCalls (tools : List MTool) : List RawToolCall → List ToolOutcome × List Event
  | [] => ([], [])
  | call :: rest =>
    let st := runToolCalls tools rest
    match tools.find? (fun t => t.name == call.name) with
    | none => (⟨call.name, [], some (notFoundMsg call.name)⟩ :: st.1, st.2)
    | some t =>
      match t.execute call.parameters with
      | .str s => (⟨call.name, s, none⟩ :: st.1, .toolInvoke call.name call.parameters :: st.2)
      | .json v => (⟨call.name, Json.stringifyCompact v, none⟩ :: st.1,
          .toolInvoke call.name call.parameters :: st.2)
      | .raise m => (⟨call.name, [], some m⟩ :: st.1,
          .toolInvoke call.name call.parameters :: st.2)

/-- `handleToolCalls` (ollamaClient.ts 206-273): execute the calls, build
the follow-up prompt, call the API once more and yield a single `STOP`
reply carrying the second pass's cleaned text (raw fallback) and the
*first* parse's function calls.  A transport throw at the second call
propagates (to the generator's `catch`); the events before the throw
have happened. -/
def handleToolCalls (env : TurnEnv) (originalPrompt : Str) (parsed : ParsedOllamaResponse)
    (tools : List MTool) : Except Str (List Reply) × List Event :=
  let outcomes := (runToolCalls tools parsed.rawToolCalls).1
  let evs := (runToolCalls tools parsed.rawToolCalls).2
  let fu := buildFollowUpPrompt originalPrompt parsed.rawToolCalls outcomes
  match callOllamaApi (env.api fu) with
  | .error msg => (.error msg, evs ++ [.apiCall fu])
  | .ok finalResponseText =>
    let fp := parseOllamaResponse finalResponseText
    (.ok [⟨fp.text.getD finalResponseText, .STOP, parsed.functionCalls⟩], evs ++ [.apiCall fu])

def errorReply (msg : Str) : Reply := ⟨"Error: ".data ++ msg, .OTHER, []⟩

/-- `generateContentStreamInternal` (ollamaClient.ts 70-134), one turn:
extract the last user prompt (a missing or empty one throws), build the
prompt, call the API, parse; with function calls and a registry run
`handleToolCalls`, else yield the cleaned text (raw fallback) with
`STOP`; any throw is caught and yields a single `OTHER` reply whose text
is `Error: ` + the message. -/
def generateTurn (env : TurnEnv) (contents : List Content) : List Reply × List Event :=
  match extractUserPrompt contents with
  | none => ([errorReply "No user prompt found in request".data], [])
  | some up =>
    if up.isEmpty then ([errorReply "No user prompt found in request".data], [])
    else
      let tools := env.tools.getD []
      let prompt := buildOllamaPrompt up tools
      match callOllamaApi (env.api prompt) with
      | .error msg => ([errorReply msg], [.apiCall prompt])
      | .ok responseText =>
        let parsed := parseOllamaResponse responseText
        if 0 < parsed.functionCalls.length ∧ env.tools.isSome then
          match handleToolCalls env up parsed tools with
          | (.error msg, tr) => ([errorReply msg], .apiCall prompt :: tr)
          | (.ok replies, tr) => (replies, .apiCall prompt :: tr)
        else
          ([⟨parsed.text.getD responseText, .STOP, parsed.functionCalls⟩], [.apiCall prompt])

/-- Placeholder for `EmbedContentParameters` (its content is never read). -/
structure EmbedContentParameters where
  payload : Str

structure EmbedContentResponse where
  embeddings : List (List Int)

/-- `embedContent` (ollamaClient.ts 147-151): unconditionally throws. -/
def embedContent (_request : EmbedContentParameters) : Except Str EmbedContentResponse :=
  .error "Embedding not yet implemented for Ollama".data

def exceptIsOk {ε α : Type} : Except ε α → Bool
  | .ok _ => true
  | .error _ => false

/-! ## Lemmas: substring search -/

lemma occursB_iff (pat s : Str) : occursB pat s = true ↔ Occurs pat s := by
  induction s with
  | nil =>
    simp only [occursB, List.isPrefixOf_iff_prefix, List.prefix_nil, Occurs]
    constructor
    · rintro rfl; exact ⟨[], [], rfl⟩
    · rintro ⟨u, v, h⟩
      exact (by simpa using congrArg List.length h.symm : u = [] ∧ pat = [] ∧ v = []).2.1
  | cons c rest ih =>
    simp only [occursB, Bool.or_eq_true, List.isPrefixOf_iff_prefix, ih]
    constructor
    · rintro (⟨w, hw⟩ | ⟨u, v, rfl⟩)
      · exact ⟨[], w, by simpa using hw.symm⟩
      · exact ⟨c :: u, v, rfl⟩
    · rintro ⟨u, v, h⟩
      cases u with
      | nil => exact Or.inl ⟨v, by simpa using h.symm⟩
      | cons c0 u' =>
        simp only [List.cons_append, List.cons.injEq] at h
        exact Or.inr ⟨u', v, h.2⟩

lemma Occurs.mem {pat s : Str} (h : Occurs pat s) {c : Char} (hc : c ∈ pat) : c ∈ s := by
  obtain ⟨u, v, rfl⟩ := h
  exact List.mem_append.2 (Or.inl (List.mem_append.2 (Or.inr hc)))

lemma splitFirst_self_append (pat b : Str) (hpat : pat ≠ []) :
    splitFirst pat (pat ++ b) = some ([], b) := by
  obtain ⟨p, pt, rfl⟩ : ∃ p pt, pat = p :: pt := by
    cases pat with
    | nil => exact absurd rfl hpat
    | cons p pt => exact ⟨p, pt, rfl⟩
  rw [List.cons_append, splitFirst, if_pos]
  · rw [← List.cons_append, List.drop_left]
  · rw [List.isPrefixOf_iff_prefix, ← List.cons_append]
    exact List.prefix_append _ _

lemma splitFirst_cons_of_not_prefix (pat : Str) (c : Char) (s : Str)
    (h : ¬pat <+: c :: s) :
    splitFirst pat (c :: s) = (splitFirst pat s).map (fun q => (c :: q.1, q.2)) := by
  rw [splitFirst, if_neg]
  rw [List.isPrefixOf_iff_prefix]
  exact h

lemma not_prefix_cons_of_head_ne {pat : Str} {p c : Char} {pt s : Str}
    (hpat : pat = p :: pt) (hne : p ≠ c) : ¬pat <+: c :: s := by
  subst hpat
  rintro ⟨w, hw⟩
  simp only [List.cons_append, List.cons.injEq] at hw
  exact hne hw.1

lemma splitFirst_append_of_ltFree (pat : Str) (pt : Str) (hp : pat = '<' :: pt) :
    ∀ (a s : Str), '<' ∉ a →
      splitFirst pat (a ++ s) = (splitFirst pat s).map (fun q => (a ++ q.1, q.2)) := by
  intro a
  induction a with
  | nil =>
    intro s _
    simp only [List.nil_append]
    cases h : splitFirst pat s with
    | none => simp
    | some q => simp
  | cons c a ih =>
    intro s hlt
    have hc : '<' ≠ c := fun h => hlt (h ▸ List.mem_cons_self _ _)
    rw [List.cons_append,
      splitFirst_cons_of_not_prefix pat c (a ++ s) (not_prefix_cons_of_head_ne hp hc),
      ih s (fun h => hlt (List.mem_cons_of_mem _ h))]
    cases splitFirst pat s with
    | none => simp
    | some q => simp

lemma splitFirst_eq_none_of_ltFree (pat : Str) (pt : Str) (hp : pat = '<' :: pt)
    (a : Str) (ha : '<' ∉ a) : splitFirst pat a = none := by
  have h := splitFirst_append_of_ltFree pat pt hp a [] ha
  rw [List.append_nil] at h
  rw [h]
  have : splitFirst pat [] = none := by
    rw [splitFirst, if_neg]
    rw [List.isPrefixOf_iff_prefix, hp]
    simp
  rw [this]
  rfl

/-! ## Lemmas: newline collapsing -/

lemma collapseNL_prefix_intact :
    ∀ (b : Str), occursB tripleNL b = false → b.getLast? ≠ some '\n' →
      ∀ v, collapseNL (b ++ v) = b ++ collapseNL v := by
  intro b
  induction b with
  | nil => intro _ _ v; rfl
  | cons c b' ih =>
    intro h3 hl v
    have hnp : ¬tripleNL <+: c :: (b' ++ v) := by
      intro hp
      obtain ⟨hc, hp2⟩ := List.cons_prefix_cons.mp hp
      cases b' with
      | nil => exact hl (by simp [← hc])
      | cons d b'' =>
        rw [List.cons_append] at hp2
        obtain ⟨hd, hp3⟩ := List.cons_prefix_cons.mp hp2
        cases b'' with
        | nil => exact hl (by simp [← hd])
        | cons e b3 =>
          rw [List.cons_append] at hp3
          obtain ⟨he, _⟩ := List.cons_prefix_cons.mp hp3
          have htp : tripleNL <+: c :: d :: e :: b3 := by
            rw [← hc, ← hd, ← he]
            exact ⟨b3, rfl⟩
          rw [occursB, Bool.or_eq_false_iff] at h3
          exact Bool.eq_false_iff.mp h3.1 (List.isPrefixOf_iff_prefix.mpr htp)
    rw [List.cons_append, collapseNL, if_neg (by rw [List.isPrefixOf_iff_prefix]; exact hnp)]
    have h3' : occursB tripleNL b' = false := by
      rw [occursB, Bool.or_eq_false_iff] at h3; exact h3.2
    have hl' : b'.getLast? ≠ some '\n' := by
      cases b' with
      | nil => simp
      | cons d b'' => rw [List.getLast?_cons_cons] at hl; exact hl
    rw [ih h3' hl' v, List.cons_append]

lemma collapseNL_append_exists (b v : Str) (h3 : occursB tripleNL b = false)
    (hl : b.getLast? ≠ some '\n') :
    ∀ u, ∃ u', collapseNL (u ++ b ++ v) = u' ++ b ++ collapseNL v := by
  intro u
  induction u with
  | nil => exact ⟨[], by simpa using collapseNL_prefix_intact b h3 hl v⟩
  | cons c u ih =>
    obtain ⟨u', hu'⟩ := ih
    by_cases hp : tripleNL.isPrefixOf (c :: (u ++ b ++ v)) = true
    · refine ⟨u', ?_⟩
      simp only [List.cons_append]
      rw [collapseNL, if_pos hp]
      exact hu'
    · refine ⟨c :: u', ?_⟩
      simp only [List.cons_append]
      rw [collapseNL, if_neg hp, hu']

lemma collapseNL_cons_of_head_ne (d : Char) (r : Str) (hd : d ≠ '\n') :
    collapseNL (d :: r) = d :: collapseNL r := by
  rw [collapseNL, if_neg]
  rw [List.isPrefixOf_iff_prefix]
  intro hp
  exact hd (List.cons_prefix_cons.mp hp).1.symm

lemma collapseNL_no_triple : ∀ s : Str, occursB tripleNL (collapseNL s) = false := by
  intro s
  induction s with
  | nil => rfl
  | cons c rest ih =>
    rw [collapseNL]
    by_cases hp : tripleNL.isPrefixOf (c :: rest) = true
    · rw [if_pos hp]; exact ih
    · rw [if_neg hp, occursB, Bool.or_eq_false_iff]
      refine ⟨?_, ih⟩
      have hp' : ¬tripleNL <+: c :: rest := fun h => hp (List.isPrefixOf_iff_prefix.mpr h)
      rw [Bool.eq_false_iff]
      intro htrue
      apply hp'
      obtain ⟨hc, h2⟩ := List.cons_prefix_cons.mp (List.isPrefixOf_iff_prefix.mp htrue)
      subst hc
      refine List.cons_prefix_cons.mpr ⟨rfl, ?_⟩
      -- `['\n', '\n'] <+: collapseNL rest` must be pushed back to `rest`
      cases rest with
      | nil => simp [collapseNL] at h2
      | cons d r' =>
        by_cases hd : d = '\n'
        · subst hd
          refine List.cons_prefix_cons.mpr ⟨rfl, ?_⟩
          by_cases htr : tripleNL <+: '\n' :: r'
          · obtain ⟨w, hw⟩ := htr
            simp only [tripleNL, List.cons_append, List.cons.injEq, List.nil_append,
              true_and] at hw
            exact ⟨'\n' :: w, by rw [← hw]; rfl⟩
          · rw [collapseNL, if_neg (fun h => htr (List.isPrefixOf_iff_prefix.mp h))] at h2
            have h3 := (List.cons_prefix_cons.mp h2).2
            cases r' with
            | nil => simp [collapseNL] at h3
            | cons e r'' =>
              by_cases he : e = '\n'
              · subst he; exact ⟨r'', rfl⟩
              · rw [collapseNL_cons_of_head_ne e r'' he] at h3
                exact absurd (List.cons_prefix_cons.mp h3).1.symm he
        · rw [collapseNL_cons_of_head_ne d r' hd] at h2
          exact absurd (List.cons_prefix_cons.mp h2).1.symm hd

lemma mem_collapseNL {c : Char} : ∀ {s : Str}, c ∈ collapseNL s → c ∈ s := by
  intro s
  induction s with
  | nil => exact fun h => h
  | cons d rest ih =>
    intro h
    rw [collapseNL] at h
    split at h
    · exact List.mem_cons_of_mem _ (ih h)
    · rcases List.mem_cons.mp h with rfl | h'
      · exact List.mem_cons_self _ _
      · exact List.mem_cons_of_mem _ (ih h')

/-! ## Lemmas: trimming -/

lemma dropWhile_append_cons (p : Char → Bool) (h : Char) (hph : p h = false) :
    ∀ (u t : Str), (u ++ h :: t).dropWhile p = u.dropWhile p ++ h :: t := by
  intro u t
  induction u with
  | nil => simp [List.dropWhile_cons, hph]
  | cons c u ih =>
    rw [List.cons_append, List.dropWhile_cons, List.dropWhile_cons]
    by_cases hc : p c = true
    · rw [if_pos hc, if_pos hc, ih]
    · rw [if_neg hc, if_neg hc, List.cons_append]

lemma head?_dropWhile_false (p : Char → Bool) :
    ∀ (l : Str) {h : Char}, (l.dropWhile p).head? = some h → p h = false := by
  intro l
  induction l with
  | nil => intro h hh; simp at hh
  | cons c t ih =>
    intro h hh
    rw [List.dropWhile_cons] at hh
    by_cases hc : p c = true
    · rw [if_pos hc] at hh; exact ih hh
    · rw [if_neg hc] at hh
      simp only [List.head?_cons, Option.some.injEq] at hh
      rw [← hh]
      exact Bool.eq_false_iff.mpr hc

lemma dropWhile_eq_self_of_head (p : Char → Bool) (l : Str)
    (hl : ∀ h, l.head? = some h → p h = false) : l.dropWhile p = l := by
  cases l with
  | nil => rfl
  | cons c t => rw [List.dropWhile_cons, if_neg (by simp [hl c rfl])]

lemma dropWhile_idem (p : Char → Bool) (l : Str) :
    (l.dropWhile p).dropWhile p = l.dropWhile p :=
  dropWhile_eq_self_of_head p _ (fun _ hh => head?_dropWhile_false p l hh)

lemma jsTrim_idem (s : Str) : jsTrim (jsTrim s) = jsTrim s := by
  unfold jsTrim
  have h1 : (((s.dropWhile isJsWs).reverse.dropWhile isJsWs).reverse).dropWhile isJsWs =
      ((s.dropWhile isJsWs).reverse.dropWhile isJsWs).reverse := by
    apply dropWhile_eq_self_of_head
    intro h hh
    rw [List.head?_reverse] at hh
    have hne : (s.dropWhile isJsWs).reverse.dropWhile isJsWs ≠ [] := by
      intro he; rw [he] at hh; exact Option.noConfusion hh
    have hdec := List.takeWhile_append_dropWhile (p := isJsWs)
      (l := (s.dropWhile isJsWs).reverse)
    have : (s.dropWhile isJsWs).reverse.getLast? = some h := by
      conv_lhs => rw [← hdec]
      rw [List.getLast?_append_of_ne_nil _ hne]
      exact hh
    rw [List.getLast?_reverse] at this
    exact head?_dropWhile_false isJsWs s this
  rw [h1, List.reverse_reverse, dropWhile_idem]

lemma mem_jsTrim {c : Char} {s : Str} (h : c ∈ jsTrim s) : c ∈ s := by
  unfold jsTrim at h
  rw [List.mem_reverse] at h
  have h2 := (List.dropWhile_sublist (l := (s.dropWhile isJsWs).reverse)
    (p := isJsWs)).subset h
  rw [List.mem_reverse] at h2
  exact (List.dropWhile_sublist (l := s) (p := isJsWs)).subset h2

lemma jsTrim_append_block (u b v : Str) (hh hg : Char)
    (hhead : b.head? = some hh) (hws1 : isJsWs hh = false)
    (hlast : b.getLast? = some hg) (hws2 : isJsWs hg = false) :
    jsTrim (u ++ b ++ v) =
      u.dropWhile isJsWs ++ b ++ (v.reverse.dropWhile isJsWs).reverse := by
  obtain ⟨t, rfl⟩ : ∃ t, b = hh :: t := by
    cases b with
    | nil => exact Option.noConfusion hhead
    | cons x t => exact ⟨t, by simpa using (by simpa using hhead : x = hh) ▸ rfl⟩
  unfold jsTrim
  have step1 : ((u ++ (hh :: t)) ++ v).dropWhile isJsWs =
      u.dropWhile isJsWs ++ (hh :: t) ++ v := by
    rw [List.append_assoc, List.cons_append, dropWhile_append_cons isJsWs hh hws1,
      ← List.cons_append, ← List.append_assoc]
  rw [step1]
  obtain ⟨tr, hrev⟩ : ∃ tr, (hh :: t).reverse = hg :: tr := by
    have : (hh :: t).reverse.head? = some hg := by
      rw [List.head?_reverse]; exact hlast
    cases hx : (hh :: t).reverse with
    | nil => rw [hx] at this; exact Option.noConfusion this
    | cons x tr =>
      rw [hx] at this
      exact ⟨tr, by simpa using (by simpa using this : x = hg) ▸ rfl⟩
  have step2 : ((u.dropWhile isJsWs ++ (hh :: t) ++ v).reverse).dropWhile isJsWs =
      v.reverse.dropWhile isJsWs ++ (hh :: t).reverse ++ (u.dropWhile isJsWs).reverse := by
    rw [List.reverse_append, List.reverse_append, hrev, List.append_assoc,
      List.cons_append, dropWhile_append_cons isJsWs hg hws2,
      ← List.cons_append, ← List.append_assoc]
  rw [step2, List.reverse_append, List.reverse_append, List.reverse_reverse,
    List.reverse_reverse, List.append_assoc]

/-! ## The interleaving decomposition

A model reply made of prose pieces and delimiter-wrapped blocks.  The
prose pieces and block interiors are required to contain no `'<'`
character: since both delimiters start with `'<'` (and contain no other
`'<'`), this makes every delimiter occurrence in the assembled text one
of the intended ones, which is what "blocks interleaved with prose"
means for a regex scan. -/

def blockText (interior : Str) : Str := openTag ++ interior ++ closeTag

/-- `assemble [(i1,t1),...,(in,tn)] = block i1 ++ t1 ++ ... ++ block in ++ tn`. -/
def assemble : List (Str × Str) → Str
  | [] => []
  | (i, t) :: rest => blockText i ++ t ++ assemble rest

lemma openTag_shape : openTag = '<' :: "tool_code>".data := by decide
lemma closeTag_shape : closeTag = '<' :: "/tool_code>".data := by decide
lemma lt_not_mem_openTail : '<' ∉ "tool_code>".data := by decide
lemma lt_not_mem_closeTail : '<' ∉ "/tool_code>".data := by decide
lemma openTag_ne_nil : openTag ≠ [] := by decide
lemma blockText_head? (i : Str) : (blockText i).head? = some '<' := rfl

lemma blockText_getLast? (i : Str) : (blockText i).getLast? = some '>' := by
  unfold blockText
  rw [List.getLast?_append_of_ne_nil _ (by decide : closeTag ≠ [])]
  decide

lemma lt_mem_blockText (i : Str) : '<' ∈ blockText i := by
  unfold blockText
  rw [openTag_shape]
  exact List.mem_append.2 (Or.inl (List.mem_append.2 (Or.inl (List.mem_cons_self _ _))))

lemma scanAux_assembled :
    ∀ (segs : List (Str × Str)) (t0 : Str) (fuel : Nat), '<' ∉ t0 →
      (∀ p ∈ segs, '<' ∉ p.1 ∧ '<' ∉ p.2) →
      (t0 ++ assemble segs).length ≤ fuel →
      scanAux fuel (t0 ++ assemble segs) = segs.map (fun p => (blockText p.1, p.1)) := by
  intro segs
  induction segs with
  | nil =>
    intro t0 fuel h0 _ _
    show scanAux fuel (t0 ++ assemble []) = []
    rw [show assemble [] = [] from rfl, List.append_nil]
    cases fuel with
    | zero => rfl
    | succ f =>
      rw [scanAux, splitFirst_eq_none_of_ltFree openTag _ openTag_shape t0 h0]
  | cons seg rest ih =>
    intro t0 fuel h0 hsegs hfuel
    obtain ⟨i, t⟩ := seg
    have hi : '<' ∉ i := (hsegs _ (List.mem_cons_self _ _)).1
    have ht : '<' ∉ t := (hsegs _ (List.mem_cons_self _ _)).2
    have hrest : ∀ p ∈ rest, '<' ∉ p.1 ∧ '<' ∉ p.2 :=
      fun p hp => hsegs p (List.mem_cons_of_mem _ hp)
    have hlen : (t0 ++ assemble ((i, t) :: rest)).length =
        t0.length + (23 + (i.length + (t.length + (assemble rest).length))) := by
      show (t0 ++ (blockText i ++ t ++ assemble rest)).length = _
      simp only [blockText, List.length_append]
      have h1 : openTag.length = 11 := by decide
      have h2 : closeTag.length = 12 := by decide
      omega
    obtain ⟨f, rfl⟩ : ∃ f, fuel = f + 1 := by
      cases fuel with
      | zero => rw [hlen] at hfuel; omega
      | succ f => exact ⟨f, rfl⟩
    show scanAux (f + 1) (t0 ++ (blockText i ++ t ++ assemble rest)) = _
    have hs : t0 ++ (blockText i ++ t ++ assemble rest) =
        t0 ++ (openTag ++ (i ++ (closeTag ++ (t ++ assemble rest)))) := by
      simp only [blockText, List.append_assoc]
    rw [hs, scanAux,
      splitFirst_append_of_ltFree openTag _ openTag_shape t0 _ h0,
      splitFirst_self_append openTag _ openTag_ne_nil]
    simp only [Option.map_some', List.append_nil]
    rw [splitFirst_append_of_ltFree closeTag _ closeTag_shape i _ hi,
      splitFirst_self_append closeTag _ (by decide)]
    simp only [Option.map_some', List.append_nil]
    have hfuel' : (t ++ assemble rest).length ≤ f := by
      rw [hlen] at hfuel
      rw [List.length_append]
      omega
    rw [ih t f ht hrest hfuel']
    rfl

lemma scanBlocks_assembled (segs : List (Str × Str)) (t0 : Str) (h0 : '<' ∉ t0)
    (hsegs : ∀ p ∈ segs, '<' ∉ p.1 ∧ '<' ∉ p.2) :
    scanBlocks (t0 ++ assemble segs) = segs.map (fun p => (blockText p.1, p.1)) :=
  scanAux_assembled segs t0 _ h0 hsegs le_rfl

/-! ## First-occurrence analysis for block removal

While the loop removes a well-formed block from the running clean text,
the part already processed consists of prose pieces and retained
malformed blocks.  The first occurrence of the well-formed block's text
is then exactly at the current position: occurrences can only start at a
`'<'`, i.e. at a delimiter of a retained block, and a malformed block
can never equal a well-formed one (well-formedness depends only on the
interior). -/

inductive DonePiece where
  | prose (t : Str)
  | badBlock (i : Str)

def pieceStr : DonePiece → Str
  | .prose t => t
  | .badBlock i => blockText i

def doneStr : List DonePiece → Str
  | [] => []
  | p :: ps => pieceStr p ++ doneStr ps

def PieceOk : DonePiece → Prop
  | .prose t => '<' ∉ t
  | .badBlock i => '<' ∉ i ∧ blockCall i = none

lemma doneStr_append (ps qs : List DonePiece) :
    doneStr (ps ++ qs) = doneStr ps ++ doneStr qs := by
  induction ps with
  | nil => rfl
  | cons p ps ih => rw [List.cons_append, doneStr, doneStr, ih, List.append_assoc]

/-- Splitting a `'<'`-free-prefixed string at its unique first `'<'`. -/
lemma eq_of_ltFree_append {a a' x x' : Str} (ha : '<' ∉ a) (ha' : '<' ∉ a')
    (h : a ++ '<' :: x = a' ++ '<' :: x') : a = a' ∧ x = x' := by
  induction a generalizing a' with
  | nil =>
    cases a' with
    | nil => simpa using h
    | cons c a'' =>
      rw [List.nil_append, List.cons_append] at h
      obtain ⟨hc, -⟩ := List.cons.inj h
      exact absurd (hc ▸ List.mem_cons_self c a'') ha'
  | cons c a ih =>
    cases a' with
    | nil =>
      rw [List.nil_append, List.cons_append] at h
      obtain ⟨hc, -⟩ := List.cons.inj h
      exact absurd (hc ▸ List.mem_cons_self c a) ha
    | cons c' a'' =>
      rw [List.cons_append, List.cons_append] at h
      obtain ⟨hc, hrest⟩ := List.cons.inj h
      have ha2 : '<' ∉ a := fun hm => ha (List.mem_cons_of_mem _ hm)
      have ha2' : '<' ∉ a'' := fun hm => ha' (List.mem_cons_of_mem _ hm)
      obtain ⟨he, hx⟩ := ih ha2 ha2' hrest
      exact ⟨by rw [hc, he], hx⟩

lemma blockText_eq_cons (g : Str) :
    blockText g = '<' :: ("tool_code>".data ++ g ++ ('<' :: ("/tool_code>".data ++ []))) := by
  show (openTag ++ g) ++ closeTag = _
  rw [openTag_shape, closeTag_shape]
  simp [List.append_assoc]

lemma blockText_not_prefix {g b : Str} (y : Str) (hg : '<' ∉ g) (hb : '<' ∉ b)
    (hgood : blockCall g ≠ none) (hbad : blockCall b = none) :
    ¬blockText g <+: blockText b ++ y := by
  rintro ⟨w, hw⟩
  -- `blockText b ++ y = blockText g ++ w`; cancel the open tag, then
  -- compare the `'<'`-free interiors before the close tags.
  have hb' : blockText b ++ y = openTag ++ (b ++ ('<' :: ("/tool_code>".data ++ y))) := by
    show (openTag ++ b) ++ closeTag ++ y = _
    rw [closeTag_shape]
    simp [List.append_assoc]
  have hg' : blockText g ++ w = openTag ++ (g ++ ('<' :: ("/tool_code>".data ++ w))) := by
    show (openTag ++ g) ++ closeTag ++ w = _
    rw [closeTag_shape]
    simp [List.append_assoc]
  rw [hb', hg'] at hw
  have h2 := List.append_cancel_left hw
  obtain ⟨hbg, -⟩ := eq_of_ltFree_append hg hb (by simpa [List.append_assoc] using h2)
  exact hgood (by rw [hbg]; exact hbad)

lemma blockText_second_char (g : Str) :
    ∃ r, blockText g = '<' :: 't' :: r := by
  refine ⟨("ool_code>".data ++ g) ++ closeTag, ?_⟩
  show (openTag ++ g) ++ closeTag = _
  rw [openTag_shape, show "tool_code>".data = 't' :: "ool_code>".data from by decide]
  simp [List.append_assoc]

lemma not_blockText_prefix_close (g : Str) (z : Str) :
    ¬blockText g <+: '<' :: ("/tool_code>".data ++ z) := by
  intro hp
  obtain ⟨r, hr⟩ := blockText_second_char g
  rw [hr, show ("/tool_code>".data : Str) = '/' :: "tool_code>".data from by decide,
    List.cons_append] at hp
  obtain ⟨-, hp2⟩ := List.cons_prefix_cons.mp hp
  exact absurd (List.cons_prefix_cons.mp hp2).1 (by decide)

lemma blockText_ne_nil (g : Str) : blockText g ≠ [] := by
  obtain ⟨r, hr⟩ := blockText_second_char g
  rw [hr]
  exact List.cons_ne_nil _ _

lemma blockText_append_shape (b z : Str) :
    blockText b ++ z =
      '<' :: (("tool_code>".data ++ b) ++ ('<' :: ("/tool_code>".data ++ z))) := by
  show (openTag ++ b) ++ closeTag ++ z = _
  rw [openTag_shape, closeTag_shape]
  simp [List.append_assoc]

lemma splitFirst_blockText_skip_bad {g b : Str} (y : Str) (hg : '<' ∉ g) (hb : '<' ∉ b)
    (hgood : blockCall g ≠ none) (hbad : blockCall b = none) :
    splitFirst (blockText g) (blockText b ++ y) =
      (splitFirst (blockText g) y).map (fun q => (blockText b ++ q.1, q.2)) := by
  obtain ⟨r, hr⟩ := blockText_second_char g
  have hot : '<' ∉ ("tool_code>".data ++ b) := by
    intro h
    rcases List.mem_append.mp h with h | h
    · exact lt_not_mem_openTail h
    · exact hb h
  rw [blockText_append_shape,
    splitFirst_cons_of_not_prefix _ _ _
      (by rw [← blockText_append_shape]; exact blockText_not_prefix y hg hb hgood hbad),
    splitFirst_append_of_ltFree (blockText g) ('t' :: r) hr _ _ hot,
    splitFirst_cons_of_not_prefix _ _ _ (not_blockText_prefix_close g y),
    splitFirst_append_of_ltFree (blockText g) ('t' :: r) hr _ _ lt_not_mem_closeTail]
  cases hy : splitFirst (blockText g) y with
  | none => rfl
  | some q =>
    simp only [Option.map_some']
    rw [blockText_append_shape b q.1]

lemma splitFirst_blockText_done (g : Str) (hg : '<' ∉ g) (hgood : blockCall g ≠ none) :
    ∀ (ps : List DonePiece), (∀ p ∈ ps, PieceOk p) → ∀ rest : Str,
      splitFirst (blockText g) (doneStr ps ++ (blockText g ++ rest)) =
        some (doneStr ps, rest) := by
  obtain ⟨r, hr⟩ := blockText_second_char g
  intro ps
  induction ps with
  | nil =>
    intro _ rest
    rw [doneStr, List.nil_append, splitFirst_self_append _ _ (blockText_ne_nil g)]
  | cons p ps ih =>
    intro hok rest
    have hps : ∀ q ∈ ps, PieceOk q := fun q hq => hok q (List.mem_cons_of_mem _ hq)
    cases p with
    | prose t =>
      have ht : '<' ∉ t := hok _ (List.mem_cons_self _ _)
      rw [doneStr, List.append_assoc]
      simp only [pieceStr]
      rw [splitFirst_append_of_ltFree (blockText g) ('t' :: r) hr t _ ht, ih hps rest]
      rfl
    | badBlock b =>
      have hpb : '<' ∉ b ∧ blockCall b = none := hok _ (List.mem_cons_self _ _)
      rw [doneStr, List.append_assoc]
      simp only [pieceStr]
      rw [splitFirst_blockText_skip_bad _ hg hpb.1 hgood hpb.2, ih hps rest]
      rfl

/-- The text that survives block removal: well-formed blocks disappear,
malformed ones stay. -/
def keptText : List (Str × Str) → Str
  | [] => []
  | (i, t) :: rest => (if (blockCall i).isSome then t else blockText i ++ t) ++ keptText rest

/-- The calls extracted from an interleaving, in appearance order. -/
def goodCalls (segs : List (Str × Str)) : List RawToolCall :=
  segs.filterMap (fun p => blockCall p.1)

/-- The `FunctionCall` built from a raw call (same name, same
`parameters || {}` value). -/
def toFn (c : RawToolCall) : FunctionCall := ⟨c.name, c.parameters⟩

lemma processMatches_cons_some {full inter : Str} {ms : List (Str × Str)} {ct : Str}
    {raws : List RawToolCall} {fns : List FunctionCall} {c : RawToolCall}
    (h : blockCall inter = some c) :
    processMatches ((full, inter) :: ms) ct raws fns =
      processMatches ms (replaceFirst ct full) (raws ++ [c]) (fns ++ [toFn c]) := by
  rw [processMatches, h]
  rfl

lemma processMatches_cons_none {full inter : Str} {ms : List (Str × Str)} {ct : Str}
    {raws : List RawToolCall} {fns : List FunctionCall}
    (h : blockCall inter = none) :
    processMatches ((full, inter) :: ms) ct raws fns = processMatches ms ct raws fns := by
  rw [processMatches, h]

lemma processMatches_assembled :
    ∀ (segs : List (Str × Str)) (ps : List DonePiece) (raws : List RawToolCall)
      (fns : List FunctionCall),
      (∀ p ∈ ps, PieceOk p) → (∀ p ∈ segs, '<' ∉ p.1 ∧ '<' ∉ p.2) →
      processMatches (segs.map (fun p => (blockText p.1, p.1)))
          (doneStr ps ++ assemble segs) raws fns =
        (doneStr ps ++ keptText segs,
         raws ++ goodCalls segs,
         fns ++ (goodCalls segs).map toFn) := by
  intro segs
  induction segs with
  | nil =>
    intro ps raws fns _ _
    simp [processMatches, keptText, goodCalls]
    rfl
  | cons seg rest ih =>
    intro ps raws fns hps hsegs
    obtain ⟨i, t⟩ := seg
    have hi : '<' ∉ i := (hsegs _ (List.mem_cons_self _ _)).1
    have ht : '<' ∉ t := (hsegs _ (List.mem_cons_self _ _)).2
    have hrest : ∀ p ∈ rest, '<' ∉ p.1 ∧ '<' ∉ p.2 :=
      fun p hp => hsegs p (List.mem_cons_of_mem _ hp)
    rw [List.map_cons]
    have hassemble : doneStr ps ++ assemble ((i, t) :: rest) =
        doneStr ps ++ (blockText i ++ (t ++ assemble rest)) := by
      show doneStr ps ++ (blockText i ++ t ++ assemble rest) = _
      simp [List.append_assoc]
    cases hbc : blockCall i with
    | some c =>
      rw [processMatches_cons_some hbc]
      have hrepl : replaceFirst (doneStr ps ++ assemble ((i, t) :: rest)) (blockText i) =
          doneStr (ps ++ [.prose t]) ++ assemble rest := by
        rw [hassemble]
        unfold replaceFirst
        rw [splitFirst_blockText_done i hi (by rw [hbc]; exact Option.noConfusion) ps hps
          (t ++ assemble rest)]
        rw [doneStr_append]
        simp [doneStr, pieceStr, List.append_assoc]
      have hok : ∀ p ∈ ps ++ [DonePiece.prose t], PieceOk p := by
        intro p hp
        rcases List.mem_append.mp hp with hp | hp
        · exact hps p hp
        · rcases List.mem_singleton.mp hp with rfl
          exact ht
      rw [hrepl, ih (ps ++ [DonePiece.prose t]) (raws ++ [c]) (fns ++ [toFn c]) hok hrest]
      rw [doneStr_append]
      have hkept : keptText ((i, t) :: rest) = t ++ keptText rest := by
        rw [keptText, hbc]
        rfl
      have hgood : goodCalls ((i, t) :: rest) = c :: goodCalls rest := by
        unfold goodCalls
        rw [List.filterMap_cons, hbc]
      rw [hkept, hgood]
      simp [doneStr, pieceStr, List.append_assoc]
    | none =>
      rw [processMatches_cons_none hbc]
      have hdone : doneStr ps ++ assemble ((i, t) :: rest) =
          doneStr (ps ++ [.badBlock i, .prose t]) ++ assemble rest := by
        rw [hassemble, doneStr_append]
        simp [doneStr, pieceStr, List.append_assoc]
      have hok2 : ∀ p ∈ ps ++ [DonePiece.badBlock i, DonePiece.prose t], PieceOk p := by
        intro p hp
        rcases List.mem_append.mp hp with hp | hp
        · exact hps p hp
        · rcases List.mem_cons.mp hp with rfl | hp
          · exact ⟨hi, hbc⟩
          · rcases List.mem_singleton.mp hp with rfl
            exact ht
      rw [hdone, ih (ps ++ [DonePiece.badBlock i, DonePiece.prose t]) raws fns hok2 hrest]
      rw [doneStr_append]
      have hkept : keptText ((i, t) :: rest) = (blockText i ++ t) ++ keptText rest := by
        rw [keptText, hbc]
        rfl
      have hgood : goodCalls ((i, t) :: rest) = goodCalls rest := by
        unfold goodCalls
        rw [List.filterMap_cons, hbc]
      rw [hkept, hgood]
      simp [doneStr, pieceStr, List.append_assoc]

/-- What `parseOllamaResponse` does on a reply made of prose and blocks. -/
lemma parseOllamaResponse_assembled (t0 : Str) (segs : List (Str × Str))
    (h0 : '<' ∉ t0) (hsegs : ∀ p ∈ segs, '<' ∉ p.1 ∧ '<' ∉ p.2) :
    parseOllamaResponse (t0 ++ assemble segs) =
      { text := if (jsTrim (collapseNL (t0 ++ keptText segs))).isEmpty then none
                else some (jsTrim (collapseNL (t0 ++ keptText segs)))
        functionCalls := (goodCalls segs).map toFn
        rawToolCalls := goodCalls segs } := by
  unfold parseOllamaResponse
  rw [scanBlocks_assembled segs t0 h0 hsegs]
  have hmain := processMatches_assembled segs [DonePiece.prose t0] [] []
    (by intro p hp; rcases List.mem_singleton.mp hp with rfl; exact h0) hsegs
  have hd : doneStr [DonePiece.prose t0] = t0 := by simp [doneStr, pieceStr]
  rw [hd] at hmain
  rw [hmain]
  simp

/-! ## Auxiliary lemmas for the claims -/

lemma filterMap_eq_of_map_some {α β : Type} (f : α → Option β) :
    ∀ (l : List α) (cs : List β), l.map f = cs.map some → l.filterMap f = cs
  | [], [], _ => rfl
  | [], _ :: _, h => by simp at h
  | _ :: _, [], h => by simp at h
  | a :: l, c :: cs, h => by
    simp only [List.map_cons, List.cons.injEq] at h
    rw [List.filterMap_cons, h.1, filterMap_eq_of_map_some f l cs h.2]

lemma isSome_of_map_eq_map_some {α β : Type} {f : α → Option β} {l : List α} {cs : List β}
    (h : l.map f = cs.map some) : ∀ a ∈ l, (f a).isSome = true := by
  intro a ha
  have hm : f a ∈ cs.map some := h ▸ List.mem_map_of_mem f ha
  obtain ⟨c, -, hc⟩ := List.mem_map.mp hm
  rw [← hc]
  rfl

lemma lt_not_mem_keptText_of_good :
    ∀ (segs : List (Str × Str)), (∀ p ∈ segs, '<' ∉ p.2) →
      (∀ p ∈ segs, (blockCall p.1).isSome = true) → '<' ∉ keptText segs := by
  intro segs
  induction segs with
  | nil => intro _ _ h; simp [keptText] at h
  | cons seg rest ih =>
    intro hp hg h
    obtain ⟨i, t⟩ := seg
    rw [keptText, hg _ (List.mem_cons_self _ _), if_pos rfl] at h
    rcases List.mem_append.mp h with h | h
    · exact hp _ (List.mem_cons_self _ _) h
    · exact ih (fun p hm => hp p (List.mem_cons_of_mem _ hm))
        (fun p hm => hg p (List.mem_cons_of_mem _ hm)) h

/-- Claim C1: for a model text of N well-formed delimiter-wrapped blocks
interleaved with prose (prose pieces and block interiors free of `'<'`,
so that the delimiters are unambiguous), `parse` extracts exactly the N
calls, in left-to-right order, each with the `tool_name` and
`parameters` of its block's embedded JSON (as computed by `blockCall`),
and the cleaned text contains no block's text. -/
theorem claim_C1 (t0 : Str) (segs : List (Str × Str)) (calls : List RawToolCall)
    (h0 : '<' ∉ t0) (hsegs : ∀ p ∈ segs, '<' ∉ p.1 ∧ '<' ∉ p.2)
    (hwf : segs.map (fun p => blockCall p.1) = calls.map some) :
    (parseOllamaResponse (t0 ++ assemble segs)).rawToolCalls = calls ∧
    (parseOllamaResponse (t0 ++ assemble segs)).functionCalls = calls.map toFn ∧
    calls.length = segs.length ∧
    (∀ p ∈ segs, ∀ tval, (parseOllamaResponse (t0 ++ assemble segs)).text = some tval →
        ¬Occurs (blockText p.1) tval) := by
  have hparse := parseOllamaResponse_assembled t0 segs h0 hsegs
  have hgood : goodCalls segs = calls := filterMap_eq_of_map_some _ segs calls hwf
  refine ⟨by rw [hparse]; exact hgood, by rw [hparse, hgood], ?_, ?_⟩
  · have := congrArg List.length hwf
    simpa using this.symm
  · intro p hp tval htext hocc
    have hlt : '<' ∈ tval := hocc.mem (lt_mem_blockText p.1)
    rw [hparse] at htext
    by_cases he : (jsTrim (collapseNL (t0 ++ keptText segs))).isEmpty = true
    · rw [if_pos he] at htext
      exact Option.noConfusion htext
    · rw [if_neg he] at htext
      obtain rfl : jsTrim (collapseNL (t0 ++ keptText segs)) = tval := Option.some.inj htext
      have h2 := mem_collapseNL (mem_jsTrim hlt)
      rcases List.mem_append.mp h2 with h | h
      · exact h0 h
      · exact lt_not_mem_keptText_of_good segs (fun q hq => (hsegs q hq).2)
          (isSome_of_map_eq_map_some hwf) h

def c1t0 : Str := "List files ".data
def c1interior : Str := "\x7b\"tool_name\": \"ls\", \"parameters\": \x7b\"path\": \".\"\x7d\x7d".data
def c1segs : List (Str × Str) := [(c1interior, " done".data)]
def c1calls : List RawToolCall :=
  [⟨"ls".data, .obj [("path".data, .str ".".data)]⟩]

theorem claim_C1_witness :
    ('<' ∉ c1t0) ∧
    (c1segs.map (fun p => blockCall p.1) = c1calls.map some) ∧
    ((parseOllamaResponse (c1t0 ++ assemble c1segs)).rawToolCalls = c1calls ∧
     (parseOllamaResponse (c1t0 ++ assemble c1segs)).functionCalls = c1calls.map toFn ∧
     c1calls.length = c1segs.length ∧
     (∀ p ∈ c1segs, ∀ tval,
        (parseOllamaResponse (c1t0 ++ assemble c1segs)).text = some tval →
        ¬Occurs (blockText p.1) tval)) :=
  ⟨by decide, rfl,
    claim_C1 c1t0 c1segs c1calls (by decide) (by decide) rfl⟩

lemma keptText_append :
    ∀ (xs ys : List (Str × Str)), keptText (xs ++ ys) = keptText xs ++ keptText ys := by
  intro xs ys
  induction xs with
  | nil => rfl
  | cons x xs ih =>
    obtain ⟨i, t⟩ := x
    rw [List.cons_append, keptText, keptText, ih, List.append_assoc]

/-- Claim C2 (amended): a block whose trimmed interior fails to parse as
JSON or lacks a non-empty string `tool_name` contributes to neither
`rawToolCalls` nor `functionCalls`; the other (well-formed) blocks of the
same input are still all extracted in order; and — provided the malformed
block contains no run of three or more consecutive newlines — its literal
delimiter-wrapped text remains in the returned text.  (Without that
proviso the literal text is altered by the newline normalization; see the
counterexample.)  `parse` is a total function, so it never raises. -/
theorem claim_C2_amended (t0 : Str) (segs : List (Str × Str))
    (h0 : '<' ∉ t0) (hsegs : ∀ p ∈ segs, '<' ∉ p.1 ∧ '<' ∉ p.2) :
    (parseOllamaResponse (t0 ++ assemble segs)).rawToolCalls = goodCalls segs ∧
    (parseOllamaResponse (t0 ++ assemble segs)).functionCalls = (goodCalls segs).map toFn ∧
    (∀ p ∈ segs, blockCall p.1 = none → occursB tripleNL (blockText p.1) = false →
      ∃ tval, (parseOllamaResponse (t0 ++ assemble segs)).text = some tval ∧
        Occurs (blockText p.1) tval) := by
  have hparse := parseOllamaResponse_assembled t0 segs h0 hsegs
  refine ⟨by rw [hparse], by rw [hparse], ?_⟩
  intro p hp hbad htrip
  obtain ⟨i, t⟩ := p
  obtain ⟨pre, post, hsplit⟩ := List.append_of_mem hp
  have hkt : t0 ++ keptText segs =
      (t0 ++ keptText pre) ++ blockText i ++ (t ++ keptText post) := by
    rw [hsplit, keptText_append, keptText, hbad]
    simp [List.append_assoc]
  obtain ⟨u', hu'⟩ := collapseNL_append_exists (blockText i) (t ++ keptText post) htrip
    (by rw [blockText_getLast?]; simp) (t0 ++ keptText pre)
  have htrim := jsTrim_append_block u' (blockText i) (collapseNL (t ++ keptText post)) '<' '>'
    (blockText_head? i) (by decide) (blockText_getLast? i) (by decide)
  have hform : jsTrim (collapseNL (t0 ++ keptText segs)) =
      u'.dropWhile isJsWs ++ blockText i ++
        ((collapseNL (t ++ keptText post)).reverse.dropWhile isJsWs).reverse := by
    rw [hkt, hu', htrim]
  have hne : ¬(jsTrim (collapseNL (t0 ++ keptText segs))).isEmpty = true := by
    rw [hform]
    simp only [List.isEmpty_iff, List.append_eq_nil]
    rintro ⟨⟨-, hb⟩, -⟩
    exact blockText_ne_nil i hb
  refine ⟨jsTrim (collapseNL (t0 ++ keptText segs)), ?_, ?_⟩
  · rw [hparse]
    simp only [if_neg hne]
  · rw [hform]
    exact ⟨_, _, rfl⟩

def c2interior : Str := "a\n\n\nb".data
def c2input : Str := "<tool_code>a\n\n\nb</tool_code>".data

/-- Claim C2 counterexample: the input consisting of one malformed block
whose interior holds a run of three newlines.  The block is skipped (no
calls), but the *literal* block text does not remain in the returned
text: the newline normalization collapses the run inside the retained
block, so the text holds an altered copy, contradicting the claim's
"its literal delimiter-wrapped text remains in the returned text". -/
theorem claim_C2_counterexample :
    c2input = blockText c2interior ∧
    Json.parse (jsTrim c2interior) = none ∧
    (parseOllamaResponse c2input).rawToolCalls = [] ∧
    (parseOllamaResponse c2input).functionCalls = [] ∧
    (parseOllamaResponse c2input).text = some "<tool_code>a\n\nb</tool_code>".data ∧
    ¬Occurs c2input "<tool_code>a\n\nb</tool_code>".data :=
  ⟨rfl, rfl, rfl, rfl, rfl, by rw [← occursB_iff]; decide⟩

def c2wT0 : Str := "x ".data
def c2wBadInterior : Str := "\x7b\"tool_name\": \"ls\"".data
def c2wGoodInterior : Str := "\x7b\"tool_name\": \"grep\"\x7d".data
def c2wSegs : List (Str × Str) := [(c2wBadInterior, " y ".data), (c2wGoodInterior, " z".data)]

theorem claim_C2_amended_witness :
    ('<' ∉ c2wT0) ∧ (∀ p ∈ c2wSegs, '<' ∉ p.1 ∧ '<' ∉ p.2) ∧
    blockCall c2wBadInterior = none ∧
    occursB tripleNL (blockText c2wBadInterior) = false ∧
    ((parseOllamaResponse (c2wT0 ++ assemble c2wSegs)).rawToolCalls = goodCalls c2wSegs ∧
     (parseOllamaResponse (c2wT0 ++ assemble c2wSegs)).functionCalls =
       (goodCalls c2wSegs).map toFn ∧
     (∀ p ∈ c2wSegs, blockCall p.1 = none →
        occursB tripleNL (blockText p.1) = false →
        ∃ tval, (parseOllamaResponse (c2wT0 ++ assemble c2wSegs)).text = some tval ∧
          Occurs (blockText p.1) tval)) :=
  ⟨by decide, by decide, rfl, by decide,
    claim_C2_amended c2wT0 c2wSegs (by decide) (by decide)⟩

/-! ## Claim C6 -/

lemma processMatches_snd_snd :
    ∀ (ms : List (Str × Str)) (ct : Str) (raws : List RawToolCall) (fns : List FunctionCall),
      fns = raws.map toFn →
      (processMatches ms ct raws fns).2.2 = (processMatches ms ct raws fns).2.1.map toFn := by
  intro ms
  induction ms with
  | nil => intro ct raws fns h; exact h
  | cons m rest ih =>
    intro ct raws fns h
    obtain ⟨full, inter⟩ := m
    cases hbc : blockCall inter with
    | some c =>
      rw [processMatches_cons_some hbc]
      exact ih _ _ _ (by rw [h, List.map_append]; rfl)
    | none =>
      rw [processMatches_cons_none hbc]
      exact ih _ _ _ h

/-- Claim C6: for every input, `structuredCalls` (here `functionCalls`)
and `rawToolCalls` have equal length and agree pointwise on name and
parameters/args — each validated block yields exactly one entry in each
list, in the same relative order, and blocks failing validation are
dropped from both (both lists are built by the same loop iteration). -/
theorem claim_C6 (s : Str) :
    (parseOllamaResponse s).functionCalls = (parseOllamaResponse s).rawToolCalls.map toFn ∧
    (parseOllamaResponse s).functionCalls.length =
      (parseOllamaResponse s).rawToolCalls.length ∧
    (∀ i : Nat, ((parseOllamaResponse s).functionCalls[i]?).map FunctionCall.name =
        ((parseOllamaResponse s).rawToolCalls[i]?).map RawToolCall.name) ∧
    (∀ i : Nat, ((parseOllamaResponse s).functionCalls[i]?).map FunctionCall.args =
        ((parseOllamaResponse s).rawToolCalls[i]?).map RawToolCall.parameters) := by
  have hmap : (parseOllamaResponse s).functionCalls =
      (parseOllamaResponse s).rawToolCalls.map toFn := by
    show (processMatches (scanBlocks s) s [] []).2.2 =
      ((processMatches (scanBlocks s) s [] []).2.1).map toFn
    exact processMatches_snd_snd _ s [] [] rfl
  refine ⟨hmap, by rw [hmap, List.length_map], ?_, ?_⟩
  · intro i
    rw [hmap, List.getElem?_map, Option.map_map]
    rfl
  · intro i
    rw [hmap, List.getElem?_map, Option.map_map]
    rfl

/-! ## Claim C7 -/

lemma Occurs.of_infix {pat x : Str} (h : Occurs pat x) (u v : Str) :
    Occurs pat (u ++ x ++ v) := by
  obtain ⟨a, b, rfl⟩ := h
  exact ⟨u ++ a, b ++ v, by simp [List.append_assoc]⟩

lemma jsTrim_decomp (x : Str) : ∃ u v, x = u ++ jsTrim x ++ v := by
  refine ⟨x.takeWhile isJsWs, ((x.dropWhile isJsWs).reverse.takeWhile isJsWs).reverse, ?_⟩
  conv_lhs => rw [← List.takeWhile_append_dropWhile (p := isJsWs) (l := x)]
  rw [List.append_assoc]
  congr 1
  conv_lhs => rw [← List.reverse_reverse (x.dropWhile isJsWs),
    ← List.takeWhile_append_dropWhile (p := isJsWs) (l := (x.dropWhile isJsWs).reverse)]
  rw [List.reverse_append]
  rfl

lemma occursB_false_jsTrim {pat y : Str} (h : occursB pat y = false) :
    occursB pat (jsTrim y) = false := by
  rw [Bool.eq_false_iff] at h ⊢
  intro htrue
  apply h
  rw [occursB_iff] at htrue ⊢
  obtain ⟨u, v, hd⟩ := jsTrim_decomp y
  rw [hd]
  exact htrue.of_infix u v

/-- Claim C7: the returned `text` is never the empty string, contains no
run of three or more consecutive newlines, and is trim-idempotent
(leading/trailing whitespace removed); and on an input with zero
delimiter blocks, both call lists are empty and `text` is exactly the
whitespace-normalized input (with `none` — JavaScript `null` — rather
than the empty string when nothing remains). -/
theorem claim_C7 (s : Str) :
    (∀ t, (parseOllamaResponse s).text = some t →
      t ≠ [] ∧ occursB tripleNL t = false ∧ jsTrim t = t) ∧
    (scanBlocks s = [] →
      (parseOllamaResponse s).rawToolCalls = [] ∧
      (parseOllamaResponse s).functionCalls = [] ∧
      (parseOllamaResponse s).text =
        (if (jsTrim (collapseNL s)).isEmpty = true then none
         else some (jsTrim (collapseNL s)))) := by
  constructor
  · intro t ht
    have hdef : (parseOllamaResponse s).text =
        (if (jsTrim (collapseNL (processMatches (scanBlocks s) s [] []).1)).isEmpty = true
         then none
         else some (jsTrim (collapseNL (processMatches (scanBlocks s) s [] []).1))) := rfl
    rw [hdef] at ht
    by_cases he :
        (jsTrim (collapseNL (processMatches (scanBlocks s) s [] []).1)).isEmpty = true
    · rw [if_pos he] at ht
      exact Option.noConfusion ht
    · rw [if_neg he] at ht
      obtain rfl := Option.some.inj ht
      refine ⟨?_, ?_, jsTrim_idem _⟩
      · intro h0
        exact he (by rw [h0]; rfl)
      · exact occursB_false_jsTrim (collapseNL_no_triple _)
  · intro hscan
    have hps : parseOllamaResponse s =
        { text := (if (jsTrim (collapseNL s)).isEmpty = true then none
                   else some (jsTrim (collapseNL s)))
          functionCalls := []
          rawToolCalls := [] } := by
      unfold parseOllamaResponse
      rw [hscan]
      rfl
    rw [hps]
    exact ⟨rfl, rfl, rfl⟩

theorem claim_C7_witness :
    ((parseOllamaResponse "  hi\n\n\n\nthere ".data).text = some "hi\n\nthere".data) ∧
    (scanBlocks "  hi\n\n\n\nthere ".data = []) ∧
    ("hi\n\nthere".data ≠ [] ∧ occursB tripleNL "hi\n\nthere".data = false ∧
      jsTrim "hi\n\nthere".data = "hi\n\nthere".data) ∧
    ((parseOllamaResponse "  hi\n\n\n\nthere ".data).rawToolCalls = [] ∧
     (parseOllamaResponse "  hi\n\n\n\nthere ".data).functionCalls = [] ∧
     (parseOllamaResponse "  hi\n\n\n\nthere ".data).text =
       (if (jsTrim (collapseNL "  hi\n\n\n\nthere ".data)).isEmpty = true then none
        else some (jsTrim (collapseNL "  hi\n\n\n\nthere ".data)))) :=
  ⟨rfl, rfl, (claim_C7 "  hi\n\n\n\nthere ".data).1 _ rfl,
    (claim_C7 "  hi\n\n\n\nthere ".data).2 rfl⟩

/-! ## Claim C5 -/

/-- The outcome `handleToolCalls` produces for one call. -/
def outcomeFor (tools : List MTool) (call : RawToolCall) : ToolOutcome :=
  match tools.find? (fun t => t.name == call.name) with
  | none => ⟨call.name, [], some (notFoundMsg call.name)⟩
  | some t =>
    match t.execute call.parameters with
    | .str s => ⟨call.name, s, none⟩
    | .json v => ⟨call.name, Json.stringifyCompact v, none⟩
    | .raise m => ⟨call.name, [], some m⟩

/-- The invocation events one call produces (none when unresolved). -/
def invokesFor (tools : List MTool) (call : RawToolCall) : List Event :=
  match tools.find? (fun t => t.name == call.name) with
  | none => []
  | some _ => [Event.toolInvoke call.name call.parameters]

lemma runToolCalls_eq (tools : List MTool) :
    ∀ calls : List RawToolCall,
      runToolCalls tools calls =
        (calls.map (outcomeFor tools), (calls.map (invokesFor tools)).flatten) := by
  intro calls
  induction calls with
  | nil => rfl
  | cons c cs ih =>
    rw [runToolCalls, ih]
    cases hf : tools.find? (fun t => t.name == c.name) with
    | none =>
      simp only [List.map_cons, List.flatten_cons, outcomeFor, invokesFor, hf]
      rfl
    | some tl =>
      cases he : tl.execute c.parameters with
      | str r => simp [outcomeFor, invokesFor, hf, he]
      | json v => simp [outcomeFor, invokesFor, hf, he]
      | raise m => simp [outcomeFor, invokesFor, hf, he]

/-- Claim C5: tool execution returns one outcome per call, index-aligned;
an unresolved name yields the `Tool '<name>' not found` error outcome
with no invocation event; a raising tool has its message captured; every
call — also those after a failure — gets its own outcome computed from
itself (the whole loop is a map, so no call aborts the rest), and the
invocation events are exactly those of the resolved calls, in order. -/
theorem claim_C5 (tools : List MTool) (calls : List RawToolCall) :
    (runToolCalls tools calls).1.length = calls.length ∧
    (runToolCalls tools calls).2 = (calls.map (invokesFor tools)).flatten ∧
    ∀ (i : Nat) (call : RawToolCall), calls[i]? = some call →
      (runToolCalls tools calls).1[i]? = some (outcomeFor tools call) ∧
      (outcomeFor tools call).name = call.name ∧
      (tools.find? (fun t => t.name == call.name) = none →
        (outcomeFor tools call).error = some (notFoundMsg call.name) ∧
        invokesFor tools call = []) ∧
      (∀ tl, tools.find? (fun t => t.name == call.name) = some tl →
        invokesFor tools call = [Event.toolInvoke call.name call.parameters] ∧
        (∀ m, tl.execute call.parameters = .raise m →
          (outcomeFor tools call).error = some m) ∧
        (∀ r, tl.execute call.parameters = .str r →
          (outcomeFor tools call).error = none ∧ (outcomeFor tools call).result = r) ∧
        (∀ v, tl.execute call.parameters = .json v →
          (outcomeFor tools call).error = none ∧
          (outcomeFor tools call).result = Json.stringifyCompact v)) := by
  rw [runToolCalls_eq]
  refine ⟨by simp, rfl, ?_⟩
  intro i call hi
  refine ⟨by rw [List.getElem?_map, hi]; rfl, ?_, ?_, ?_⟩
  · unfold outcomeFor
    cases hf : tools.find? (fun t => t.name == call.name) with
    | none => rfl
    | some tl => cases he : tl.execute call.parameters <;> simp [he]
  · intro hf
    unfold outcomeFor invokesFor
    rw [hf]
    exact ⟨rfl, rfl⟩
  · intro tl hf
    unfold outcomeFor invokesFor
    rw [hf]
    refine ⟨rfl, ?_, ?_, ?_⟩
    · intro m hm; simp [hm]
    · intro r hr; simp [hr]
    · intro v hv; simp [hv]

def c5tool1 : MTool :=
  { name := "ls".data
    displayName := "List".data
    description := "lists".data
    schema := ⟨none⟩
    execute := fun _ => .str "ok".data }

def c5tool2 : MTool :=
  { name := "boom".data
    displayName := "Boom".data
    description := "fails".data
    schema := ⟨none⟩
    execute := fun _ => .raise "kaboom".data }

def c5calls : List RawToolCall :=
  [⟨"ls".data, .obj []⟩, ⟨"missing".data, .obj []⟩, ⟨"boom".data, .obj []⟩]

theorem claim_C5_witness :
    (c5calls[1]? = some ⟨"missing".data, .obj []⟩) ∧
    ((runToolCalls [c5tool1, c5tool2] c5calls).1.length = c5calls.length ∧
     (runToolCalls [c5tool1, c5tool2] c5calls).1[1]? =
       some (outcomeFor [c5tool1, c5tool2] ⟨"missing".data, .obj []⟩) ∧
     (outcomeFor [c5tool1, c5tool2] ⟨"missing".data, .obj []⟩).error =
       some (notFoundMsg "missing".data)) := by
  have h := claim_C5 [c5tool1, c5tool2] c5calls
  have h1 := h.2.2 1 ⟨"missing".data, .obj []⟩ rfl
  exact ⟨rfl, h.1, h1.1, (h1.2.2.1 rfl).1⟩

/-! ## Claim C9 -/

/-- Claim C9: the embed-content operation always fails with the explicit
`not implemented` error and never succeeds (no silent empty result). -/
theorem claim_C9 (request : EmbedContentParameters) :
    embedContent request = .error "Embedding not yet implemented for Ollama".data ∧
    exceptIsOk (embedContent request) = false :=
  ⟨rfl, rfl⟩

/-! ## Orchestrator path lemmas -/

lemma generateTurn_call1_error (env : TurnEnv) (contents : List Content) (up msg : Str)
    (hup : extractUserPrompt contents = some up) (hne : up.isEmpty = false)
    (herr : callOllamaApi (env.api (buildOllamaPrompt up (env.tools.getD []))) = .error msg) :
    generateTurn env contents =
      ([errorReply msg], [.apiCall (buildOllamaPrompt up (env.tools.getD []))]) := by
  unfold generateTurn
  rw [hup]
  simp only [hne, Bool.false_eq_true, if_false, herr]

lemma generateTurn_noToolPath (env : TurnEnv) (contents : List Content) (up resp : Str)
    (hup : extractUserPrompt contents = some up) (hne : up.isEmpty = false)
    (hresp : callOllamaApi (env.api (buildOllamaPrompt up (env.tools.getD []))) = .ok resp)
    (hcond : ¬(0 < (parseOllamaResponse resp).functionCalls.length ∧
        env.tools.isSome = true)) :
    generateTurn env contents =
      ([⟨(parseOllamaResponse resp).text.getD resp, .STOP,
          (parseOllamaResponse resp).functionCalls⟩],
       [.apiCall (buildOllamaPrompt up (env.tools.getD []))]) := by
  unfold generateTurn
  rw [hup]
  simp only [hne, Bool.false_eq_true, if_false, hresp]
  rw [if_neg hcond]

lemma generateTurn_toolPath (env : TurnEnv) (contents : List Content) (ts : List MTool)
    (up resp : Str)
    (hreg : env.tools = some ts)
    (hup : extractUserPrompt contents = some up) (hne : up.isEmpty = false)
    (hresp : callOllamaApi (env.api (buildOllamaPrompt up ts)) = .ok resp)
    (hcalls : 0 < (parseOllamaResponse resp).functionCalls.length) :
    generateTurn env contents =
      (match handleToolCalls env up (parseOllamaResponse resp) ts with
       | (.error msg, tr) => ([errorReply msg], .apiCall (buildOllamaPrompt up ts) :: tr)
       | (.ok replies, tr) => (replies, .apiCall (buildOllamaPrompt up ts) :: tr)) := by
  unfold generateTurn
  rw [hup]
  simp only [hne, Bool.false_eq_true, if_false, hreg, Option.getD_some, hresp]
  rw [if_pos ⟨hcalls, rfl⟩]

lemma handleToolCalls_shape (env : TurnEnv) (up : Str) (parsed : ParsedOllamaResponse)
    (tools : List MTool) :
    (∃ msg, handleToolCalls env up parsed tools =
      (.error msg,
       (runToolCalls tools parsed.rawToolCalls).2 ++
         [.apiCall (buildFollowUpPrompt up parsed.rawToolCalls
            (runToolCalls tools parsed.rawToolCalls).1)]) ∧
      callOllamaApi (env.api (buildFollowUpPrompt up parsed.rawToolCalls
        (runToolCalls tools parsed.rawToolCalls).1)) = .error msg) ∨
    (∃ finalResp, handleToolCalls env up parsed tools =
      (.ok [⟨(parseOllamaResponse finalResp).text.getD finalResp, .STOP,
          parsed.functionCalls⟩],
       (runToolCalls tools parsed.rawToolCalls).2 ++
         [.apiCall (buildFollowUpPrompt up parsed.rawToolCalls
            (runToolCalls tools parsed.rawToolCalls).1)]) ∧
      callOllamaApi (env.api (buildFollowUpPrompt up parsed.rawToolCalls
        (runToolCalls tools parsed.rawToolCalls).1)) = .ok finalResp) := by
  unfold handleToolCalls
  cases hc : callOllamaApi (env.api (buildFollowUpPrompt up parsed.rawToolCalls
      (runToolCalls tools parsed.rawToolCalls).1)) with
  | error msg =>
    refine Or.inl ⟨msg, ?_, rfl⟩
    simp only [hc]
  | ok finalResp =>
    refine Or.inr ⟨finalResp, ?_, rfl⟩
    simp only [hc]

/-! ## Claim C8 -/

/-- Claim C8: every turn yields exactly one reply — a terminal `STOP`
reply or an error reply with `OTHER` status — never zero, never more. -/
theorem claim_C8 (env : TurnEnv) (contents : List Content) :
    (generateTurn env contents).1.length = 1 ∧
    ∀ r ∈ (generateTurn env contents).1,
      r.finishReason = .STOP ∨ r.finishReason = .OTHER := by
  have hsingle : ∀ (r : Reply) (tr : List Event),
      (r.finishReason = .STOP ∨ r.finishReason = .OTHER) →
      (([r], tr) : List Reply × List Event).1.length = 1 ∧
        ∀ x ∈ (([r], tr) : List Reply × List Event).1,
          x.finishReason = .STOP ∨ x.finishReason = .OTHER := by
    intro r tr h
    refine ⟨rfl, ?_⟩
    intro x hx
    rcases List.mem_singleton.mp hx with rfl
    exact h
  cases hup : extractUserPrompt contents with
  | none =>
    have h : generateTurn env contents =
        ([errorReply "No user prompt found in request".data], []) := by
      unfold generateTurn
      rw [hup]
    rw [h]
    exact hsingle _ _ (Or.inr rfl)
  | some up =>
    by_cases hemp : up.isEmpty = true
    · have h : generateTurn env contents =
          ([errorReply "No user prompt found in request".data], []) := by
        unfold generateTurn
        rw [hup]
        simp only [hemp, if_true]
      rw [h]
      exact hsingle _ _ (Or.inr rfl)
    · have hne : up.isEmpty = false := Bool.eq_false_iff.mpr hemp
      cases hapi : callOllamaApi (env.api (buildOllamaPrompt up (env.tools.getD []))) with
      | error msg =>
        rw [generateTurn_call1_error env contents up msg hup hne hapi]
        exact hsingle _ _ (Or.inr rfl)
      | ok resp =>
        by_cases hcond : 0 < (parseOllamaResponse resp).functionCalls.length ∧
            env.tools.isSome = true
        · obtain ⟨ts, hreg⟩ := Option.isSome_iff_exists.mp hcond.2
          have hapi' : callOllamaApi (env.api (buildOllamaPrompt up ts)) = .ok resp := by
            simp only [hreg, Option.getD_some] at hapi
            exact hapi
          rw [generateTurn_toolPath env contents ts up resp hreg hup hne hapi' hcond.1]
          rcases handleToolCalls_shape env up (parseOllamaResponse resp) ts with
            ⟨msg, heq, -⟩ | ⟨finalResp, heq, -⟩
          · rw [heq]
            exact hsingle _ _ (Or.inr rfl)
          · rw [heq]
            exact hsingle _ _ (Or.inl rfl)
        · rw [generateTurn_noToolPath env contents up resp hup hne hapi hcond]
          exact hsingle _ _ (Or.inl rfl)

/-! ## Claim C3 -/

/-- Claim C3: when the first reply parses to at least one structured call
and a registry is present (and, as the claim's normal path presumes, the
transport succeeds), the turn executes the parsed calls' tools exactly
once — their invocation events sit between the first and second API-call
events — sends exactly one follow-up prompt, and terminates with a single
`STOP` reply carrying the second pass's cleaned text (raw second response
as fallback).  The trace ends at the second API call: no tool invocation
follows it, so tool-call directives in the second reply are never
executed and remain ordinary text in the final reply. -/
theorem claim_C3 (env : TurnEnv) (contents : List Content) (ts : List MTool)
    (up resp finalResp : Str)
    (hreg : env.tools = some ts)
    (hup : extractUserPrompt contents = some up) (hne : up.isEmpty = false)
    (hresp : callOllamaApi (env.api (buildOllamaPrompt up ts)) = .ok resp)
    (hcalls : 0 < (parseOllamaResponse resp).functionCalls.length)
    (hfinal : callOllamaApi (env.api (buildFollowUpPrompt up
        (parseOllamaResponse resp).rawToolCalls
        (runToolCalls ts (parseOllamaResponse resp).rawToolCalls).1)) = .ok finalResp) :
    generateTurn env contents =
      ([⟨(parseOllamaResponse finalResp).text.getD finalResp, .STOP,
          (parseOllamaResponse resp).functionCalls⟩],
       .apiCall (buildOllamaPrompt up ts) ::
         ((runToolCalls ts (parseOllamaResponse resp).rawToolCalls).2 ++
          [.apiCall (buildFollowUpPrompt up (parseOllamaResponse resp).rawToolCalls
            (runToolCalls ts (parseOllamaResponse resp).rawToolCalls).1)])) := by
  rw [generateTurn_toolPath env contents ts up resp hreg hup hne hresp hcalls]
  have hh : handleToolCalls env up (parseOllamaResponse resp) ts =
      (.ok [⟨(parseOllamaResponse finalResp).text.getD finalResp, .STOP,
          (parseOllamaResponse resp).functionCalls⟩],
       (runToolCalls ts (parseOllamaResponse resp).rawToolCalls).2 ++
         [.apiCall (buildFollowUpPrompt up (parseOllamaResponse resp).rawToolCalls
            (runToolCalls ts (parseOllamaResponse resp).rawToolCalls).1)]) := by
    unfold handleToolCalls
    simp only [hfinal]
  rw [hh]

def c3resp : Str := "hey <tool_code>\x7b\"tool_name\": \"ls\"\x7d</tool_code>".data
def c3env : TurnEnv :=
  { api := fun _ => .httpResponse 200 "OK".data c3resp
    tools := some [c5tool1] }
def c3contents : List Content := [⟨"user".data, [.text "list please".data]⟩]

theorem claim_C3_witness :
    (c3env.tools = some [c5tool1]) ∧
    (extractUserPrompt c3contents = some "list please".data) ∧
    (0 < (parseOllamaResponse c3resp).functionCalls.length) ∧
    generateTurn c3env c3contents =
      ([⟨(parseOllamaResponse c3resp).text.getD c3resp, .STOP,
          (parseOllamaResponse c3resp).functionCalls⟩],
       .apiCall (buildOllamaPrompt "list please".data [c5tool1]) ::
         ((runToolCalls [c5tool1] (parseOllamaResponse c3resp).rawToolCalls).2 ++
          [.apiCall (buildFollowUpPrompt "list please".data
            (parseOllamaResponse c3resp).rawToolCalls
            (runToolCalls [c5tool1] (parseOllamaResponse c3resp).rawToolCalls).1)])) :=
  ⟨rfl, rfl, by decide,
    claim_C3 c3env c3contents [c5tool1] "list please".data c3resp c3resp
      rfl rfl (by decide) rfl (by decide) rfl⟩

/-! ## Claim C4 -/

lemma isTransportFail_error {f : FetchOutcome} (h : f.isTransportFail) :
    ∃ m, callOllamaApi f = .error m := by
  cases f with
  | netError m => exact ⟨m, rfl⟩
  | httpResponse status st body =>
    refine ⟨"Ollama API error: ".data ++ (Nat.repr status).data ++ ' ' :: st, ?_⟩
    show (if 200 ≤ status ∧ status < 300 then Except.ok body
      else Except.error ("Ollama API error: ".data ++ (Nat.repr status).data ++ ' ' :: st)) = _
    rw [if_neg h]

/-- Claim C4: a transport failure (unreachable endpoint or non-2xx
status) at either network call ends the turn with exactly one reply
whose finish status is `OTHER` and whose text is `Error: ` plus the
failure message, with empty function calls; when the *first* call fails
the trace is just that one API call, so no tool is ever invoked and no
retry is performed; when the second call fails the trace ends at that
second call — again no retry. -/
theorem claim_C4 (env : TurnEnv) (contents : List Content) (up : Str)
    (hup : extractUserPrompt contents = some up) (hne : up.isEmpty = false) :
    ((env.api (buildOllamaPrompt up (env.tools.getD []))).isTransportFail →
      ∃ msg,
        callOllamaApi (env.api (buildOllamaPrompt up (env.tools.getD []))) = .error msg ∧
        generateTurn env contents =
          ([errorReply msg], [.apiCall (buildOllamaPrompt up (env.tools.getD []))]) ∧
        (errorReply msg).finishReason = .OTHER ∧
        (errorReply msg).text = "Error: ".data ++ msg ∧
        (errorReply msg).functionCalls = []) ∧
    (∀ (ts : List MTool) (resp : Str), env.tools = some ts →
      callOllamaApi (env.api (buildOllamaPrompt up ts)) = .ok resp →
      0 < (parseOllamaResponse resp).functionCalls.length →
      (env.api (buildFollowUpPrompt up (parseOllamaResponse resp).rawToolCalls
        (runToolCalls ts (parseOllamaResponse resp).rawToolCalls).1)).isTransportFail →
      ∃ msg,
        generateTurn env contents =
          ([errorReply msg],
           .apiCall (buildOllamaPrompt up ts) ::
             ((runToolCalls ts (parseOllamaResponse resp).rawToolCalls).2 ++
              [.apiCall (buildFollowUpPrompt up (parseOllamaResponse resp).rawToolCalls
                (runToolCalls ts (parseOllamaResponse resp).rawToolCalls).1)])) ∧
        (errorReply msg).finishReason = .OTHER ∧
        (errorReply msg).functionCalls = []) := by
  constructor
  · intro hfail
    obtain ⟨msg, hmsg⟩ := isTransportFail_error hfail
    exact ⟨msg, hmsg, generateTurn_call1_error env contents up msg hup hne hmsg,
      rfl, rfl, rfl⟩
  · intro ts resp hreg hresp hcalls hfail
    obtain ⟨msg, hmsg⟩ := isTransportFail_error hfail
    refine ⟨msg, ?_, rfl, rfl⟩
    rw [generateTurn_toolPath env contents ts up resp hreg hup hne hresp hcalls]
    have hh : handleToolCalls env up (parseOllamaResponse resp) ts =
        (.error msg,
         (runToolCalls ts (parseOllamaResponse resp).rawToolCalls).2 ++
           [.apiCall (buildFollowUpPrompt up (parseOllamaResponse resp).rawToolCalls
              (runToolCalls ts (parseOllamaResponse resp).rawToolCalls).1)]) := by
      unfold handleToolCalls
      simp only [hmsg]
    rw [hh]

def c4env : TurnEnv := { api := fun _ => .netError "fetch failed".data, tools := none }

theorem claim_C4_witness :
    (extractUserPrompt c3contents = some "list please".data) ∧
    (c4env.api (buildOllamaPrompt "list please".data (c4env.tools.getD []))).isTransportFail ∧
    ∃ msg,
      callOllamaApi (c4env.api (buildOllamaPrompt "list please".data
        (c4env.tools.getD []))) = .error msg ∧
      generateTurn c4env c3contents =
        ([errorReply msg], [.apiCall (buildOllamaPrompt "list please".data
          (c4env.tools.getD []))]) ∧
      (errorReply msg).finishReason = .OTHER ∧
      (errorReply msg).text = "Error: ".data ++ msg ∧
      (errorReply msg).functionCalls = [] :=
  ⟨rfl, trivial,
    (claim_C4 c4env c3contents "list please".data rfl (by decide)).1 trivial⟩

/-! ## Claim C10 -/

/-- Claim C10 (amended): with no tool registry, a first reply containing
well-formed tool-call blocks takes the no-calls path — no tool is
executed and no follow-up prompt is sent (the trace is one API call) —
and the single `STOP` reply's `functionCalls` still carries the parsed
calls, while its text is the cleaned text when any remains and falls
back to the raw response text (blocks included) when the cleaned text is
`null`. -/
theorem claim_C10_amended (env : TurnEnv) (contents : List Content) (up resp : Str)
    (hreg : env.tools = none)
    (hup : extractUserPrompt contents = some up) (hne : up.isEmpty = false)
    (hresp : callOllamaApi (env.api (buildOllamaPrompt up [])) = .ok resp)
    (hcalls : 0 < (parseOllamaResponse resp).functionCalls.length) :
    generateTurn env contents =
      ([⟨(parseOllamaResponse resp).text.getD resp, .STOP,
          (parseOllamaResponse resp).functionCalls⟩],
       [.apiCall (buildOllamaPrompt up [])]) ∧
    0 < (parseOllamaResponse resp).functionCalls.length := by
  refine ⟨?_, hcalls⟩
  have h := generateTurn_noToolPath env contents up resp hup hne
    (by rw [hreg]; exact hresp)
    (by rintro ⟨-, hsome⟩; rw [hreg] at hsome; exact Bool.noConfusion hsome)
  rw [hreg] at h
  exact h

def c10resp : Str := "<tool_code>\x7b\"tool_name\": \"ls\"\x7d</tool_code>".data
def c10env : TurnEnv :=
  { api := fun _ => .httpResponse 200 "OK".data c10resp
    tools := none }
def c10contents : List Content := [⟨"user".data, [.text "hi".data]⟩]

theorem claim_C10_amended_witness :
    (c10env.tools = none) ∧
    (0 < (parseOllamaResponse c10resp).functionCalls.length) ∧
    (generateTurn c10env c10contents =
      ([⟨(parseOllamaResponse c10resp).text.getD c10resp, .STOP,
          (parseOllamaResponse c10resp).functionCalls⟩],
       [.apiCall (buildOllamaPrompt "hi".data [])]) ∧
     0 < (parseOllamaResponse c10resp).functionCalls.length) :=
  ⟨rfl, by decide,
    claim_C10_amended c10env c10contents "hi".data c10resp rfl rfl (by decide) rfl
      (by decide)⟩

/-- Claim C10 counterexample: a registry-less turn whose reply consists
solely of one well-formed block.  The cleaned text is `null`, so the
reply's text falls back to the *raw* response, which still contains the
delimiter block verbatim — contradicting the claim's "its text is the
cleaned text with those blocks removed". -/
theorem claim_C10_counterexample :
    c10env.tools = none ∧
    (parseOllamaResponse c10resp).functionCalls.length = 1 ∧
    (parseOllamaResponse c10resp).text = none ∧
    (generateTurn c10env c10contents).1.map Reply.text = [c10resp] ∧
    Occurs (blockText "\x7b\"tool_name\": \"ls\"\x7d".data) c10resp :=
  ⟨rfl, rfl, rfl, rfl, ⟨[], [], by decide⟩⟩

end OllamaSpec
